import Mathlib

/-!
# crypttk: authenticated AES-CBC envelopes

A shallow embedding of `blocks/aes.go`, `blocks/interface.go` and `blocks/types/interface.go`,
and the properties of `Encrypt`, `Decrypt`, `Verify`, `SerializeContainer` and
`DeserializeContainer` proved over it.

* A byte is a `Fin 256`; a byte slice is the list of its bytes, so a nil slice and an empty slice
  are the same value, and two Containers are equal when their four fields hold the same bytes.
* A Go function that returns `(value, error)` returns a pair whose second component is
  `none` for a nil error.  A call that can panic returns an `Outcome`.
* `Encrypt` draws its IV from `crypto/rand`; the source is an argument of the embedded function.
* The Go standard-library calls are embedded from their published algorithms, for a 64-bit
  platform: `crypto/aes` (FIPS-197), `crypto/cipher` (CBC), `crypto/sha256`, `crypto/hmac`,
  `strconv.Itoa`, `strconv.Atoi`, `strings.Replace`, `encoding/hex`, `encoding/base64` and the
  wire format of `encoding/gob` for a `Container`.  Shifts, masks and ors of disjoint bit fields
  are written with multiplication, division, remainder and addition where that eases proofs.
-/

namespace Crypttk

/-- A Go `byte`. -/
abbrev Byte := Fin 256

/-- Exclusive or of bytes is associative. -/
instance : Std.Associative (α := Byte) (· ^^^ ·) :=
  ⟨fun a b c => by
    have h : ∀ x y : Byte, (x ^^^ y).val = x.val ^^^ y.val := fun x y =>
      Nat.mod_eq_of_lt (Nat.xor_lt_two_pow (n := 8) x.isLt y.isLt)
    apply Fin.ext
    simp only [h, Nat.xor_assoc]⟩

/-- Exclusive or of bytes is commutative. -/
instance : Std.Commutative (α := Byte) (· ^^^ ·) :=
  ⟨fun a b => by
    have h : ∀ x y : Byte, (x ^^^ y).val = x.val ^^^ y.val := fun x y =>
      Nat.mod_eq_of_lt (Nat.xor_lt_two_pow (n := 8) x.isLt y.isLt)
    apply Fin.ext
    simp only [h, Nat.xor_comm]⟩

/-! ## crypto/aes: the AES block cipher (FIPS-197) -/

namespace AES

/-- The forward S-box (`sbox0` of `crypto/aes`). -/
def sbox0 : List Nat := [
  0x63, 0x7c, 0x77, 0x7b, 0xf2, 0x6b, 0x6f, 0xc5, 0x30, 0x01, 0x67, 0x2b, 0xfe, 0xd7, 0xab, 0x76,
  0xca, 0x82, 0xc9, 0x7d, 0xfa, 0x59, 0x47, 0xf0, 0xad, 0xd4, 0xa2, 0xaf, 0x9c, 0xa4, 0x72, 0xc0,
  0xb7, 0xfd, 0x93, 0x26, 0x36, 0x3f, 0xf7, 0xcc, 0x34, 0xa5, 0xe5, 0xf1, 0x71, 0xd8, 0x31, 0x15,
  0x04, 0xc7, 0x23, 0xc3, 0x18, 0x96, 0x05, 0x9a, 0x07, 0x12, 0x80, 0xe2, 0xeb, 0x27, 0xb2, 0x75,
  0x09, 0x83, 0x2c, 0x1a, 0x1b, 0x6e, 0x5a, 0xa0, 0x52, 0x3b, 0xd6, 0xb3, 0x29, 0xe3, 0x2f, 0x84,
  0x53, 0xd1, 0x00, 0xed, 0x20, 0xfc, 0xb1, 0x5b, 0x6a, 0xcb, 0xbe, 0x39, 0x4a, 0x4c, 0x58, 0xcf,
  0xd0, 0xef, 0xaa, 0xfb, 0x43, 0x4d, 0x33, 0x85, 0x45, 0xf9, 0x02, 0x7f, 0x50, 0x3c, 0x9f, 0xa8,
  0x51, 0xa3, 0x40, 0x8f, 0x92, 0x9d, 0x38, 0xf5, 0xbc, 0xb6, 0xda, 0x21, 0x10, 0xff, 0xf3, 0xd2,
  0xcd, 0x0c, 0x13, 0xec, 0x5f, 0x97, 0x44, 0x17, 0xc4, 0xa7, 0x7e, 0x3d, 0x64, 0x5d, 0x19, 0x73,
  0x60, 0x81, 0x4f, 0xdc, 0x22, 0x2a, 0x90, 0x88, 0x46, 0xee, 0xb8, 0x14, 0xde, 0x5e, 0x0b, 0xdb,
  0xe0, 0x32, 0x3a, 0x0a, 0x49, 0x06, 0x24, 0x5c, 0xc2, 0xd3, 0xac, 0x62, 0x91, 0x95, 0xe4, 0x79,
  0xe7, 0xc8, 0x37, 0x6d, 0x8d, 0xd5, 0x4e, 0xa9, 0x6c, 0x56, 0xf4, 0xea, 0x65, 0x7a, 0xae, 0x08,
  0xba, 0x78, 0x25, 0x2e, 0x1c, 0xa6, 0xb4, 0xc6, 0xe8, 0xdd, 0x74, 0x1f, 0x4b, 0xbd, 0x8b, 0x8a,
  0x70, 0x3e, 0xb5, 0x66, 0x48, 0x03, 0xf6, 0x0e, 0x61, 0x35, 0x57, 0xb9, 0x86, 0xc1, 0x1d, 0x9e,
  0xe1, 0xf8, 0x98, 0x11, 0x69, 0xd9, 0x8e, 0x94, 0x9b, 0x1e, 0x87, 0xe9, 0xce, 0x55, 0x28, 0xdf,
  0x8c, 0xa1, 0x89, 0x0d, 0xbf, 0xe6, 0x42, 0x68, 0x41, 0x99, 0x2d, 0x0f, 0xb0, 0x54, 0xbb, 0x16]

/-- The inverse S-box (`sbox1` of `crypto/aes`). -/
def sbox1 : List Nat := [
  0x52, 0x09, 0x6a, 0xd5, 0x30, 0x36, 0xa5, 0x38, 0xbf, 0x40, 0xa3, 0x9e, 0x81, 0xf3, 0xd7, 0xfb,
  0x7c, 0xe3, 0x39, 0x82, 0x9b, 0x2f, 0xff, 0x87, 0x34, 0x8e, 0x43, 0x44, 0xc4, 0xde, 0xe9, 0xcb,
  0x54, 0x7b, 0x94, 0x32, 0xa6, 0xc2, 0x23, 0x3d, 0xee, 0x4c, 0x95, 0x0b, 0x42, 0xfa, 0xc3, 0x4e,
  0x08, 0x2e, 0xa1, 0x66, 0x28, 0xd9, 0x24, 0xb2, 0x76, 0x5b, 0xa2, 0x49, 0x6d, 0x8b, 0xd1, 0x25,
  0x72, 0xf8, 0xf6, 0x64, 0x86, 0x68, 0x98, 0x16, 0xd4, 0xa4, 0x5c, 0xcc, 0x5d, 0x65, 0xb6, 0x92,
  0x6c, 0x70, 0x48, 0x50, 0xfd, 0xed, 0xb9, 0xda, 0x5e, 0x15, 0x46, 0x57, 0xa7, 0x8d, 0x9d, 0x84,
  0x90, 0xd8, 0xab, 0x00, 0x8c, 0xbc, 0xd3, 0x0a, 0xf7, 0xe4, 0x58, 0x05, 0xb8, 0xb3, 0x45, 0x06,
  0xd0, 0x2c, 0x1e, 0x8f, 0xca, 0x3f, 0x0f, 0x02, 0xc1, 0xaf, 0xbd, 0x03, 0x01, 0x13, 0x8a, 0x6b,
  0x3a, 0x91, 0x11, 0x41, 0x4f, 0x67, 0xdc, 0xea, 0x97, 0xf2, 0xcf, 0xce, 0xf0, 0xb4, 0xe6, 0x73,
  0x96, 0xac, 0x74, 0x22, 0xe7, 0xad, 0x35, 0x85, 0xe2, 0xf9, 0x37, 0xe8, 0x1c, 0x75, 0xdf, 0x6e,
  0x47, 0xf1, 0x1a, 0x71, 0x1d, 0x29, 0xc5, 0x89, 0x6f, 0xb7, 0x62, 0x0e, 0xaa, 0x18, 0xbe, 0x1b,
  0xfc, 0x56, 0x3e, 0x4b, 0xc6, 0xd2, 0x79, 0x20, 0x9a, 0xdb, 0xc0, 0xfe, 0x78, 0xcd, 0x5a, 0xf4,
  0x1f, 0xdd, 0xa8, 0x33, 0x88, 0x07, 0xc7, 0x31, 0xb1, 0x12, 0x10, 0x59, 0x27, 0x80, 0xec, 0x5f,
  0x60, 0x51, 0x7f, 0xa9, 0x19, 0xb5, 0x4a, 0x0d, 0x2d, 0xe5, 0x7a, 0x9f, 0x93, 0xc9, 0x9c, 0xef,
  0xa0, 0xe0, 0x3b, 0x4d, 0xae, 0x2a, 0xf5, 0xb0, 0xc8, 0xeb, 0xbb, 0x3c, 0x83, 0x53, 0x99, 0x61,
  0x17, 0x2b, 0x04, 0x7e, 0xba, 0x77, 0xd6, 0x26, 0xe1, 0x69, 0x14, 0x63, 0x55, 0x21, 0x0c, 0x7d]

/-- One S-box lookup. -/
def subByte (b : Byte) : Byte := Fin.ofNat (sbox0.getD b.val 0)

/-- One inverse S-box lookup. -/
def invSubByte (b : Byte) : Byte := Fin.ofNat (sbox1.getD b.val 0)

/-- Multiplication by `x` in GF(2^8) modulo `x^8 + x^4 + x^3 + x + 1`. -/
def xtime (a : Byte) : Byte :=
  Fin.ofNat ((a.val <<< 1) ^^^ ((a.val >>> 7) * 0x11b))

def mul2 (a : Byte) : Byte := xtime a
def mul3 (a : Byte) : Byte := xtime a ^^^ a
def mul9 (a : Byte) : Byte := xtime (xtime (xtime a)) ^^^ a
def mul11 (a : Byte) : Byte := xtime (xtime (xtime a)) ^^^ xtime a ^^^ a
def mul13 (a : Byte) : Byte := xtime (xtime (xtime a)) ^^^ xtime (xtime a) ^^^ a
def mul14 (a : Byte) : Byte := xtime (xtime (xtime a)) ^^^ xtime (xtime a) ^^^ xtime a

/-- SubBytes: the S-box applied to every byte of the state. -/
def subBytes (s : List Byte) : List Byte := s.map subByte

/-- InvSubBytes. -/
def invSubBytes (s : List Byte) : List Byte := s.map invSubByte

/-- ShiftRows on the column-major 16-byte state: row `r` rotates left by `r`. -/
def shiftRows : List Byte → List Byte
  | [s0, s1, s2, s3, s4, s5, s6, s7, s8, s9, s10, s11, s12, s13, s14, s15] =>
    [s0, s5, s10, s15, s4, s9, s14, s3, s8, s13, s2, s7, s12, s1, s6, s11]
  | s => s

/-- InvShiftRows: row `r` rotates right by `r`. -/
def invShiftRows : List Byte → List Byte
  | [s0, s1, s2, s3, s4, s5, s6, s7, s8, s9, s10, s11, s12, s13, s14, s15] =>
    [s0, s13, s10, s7, s4, s1, s14, s11, s8, s5, s2, s15, s12, s9, s6, s3]
  | s => s

/-- MixColumns on one column. -/
def mixColumn (a b c d : Byte) : List Byte :=
  [mul2 a ^^^ mul3 b ^^^ c ^^^ d,
   a ^^^ mul2 b ^^^ mul3 c ^^^ d,
   a ^^^ b ^^^ mul2 c ^^^ mul3 d,
   mul3 a ^^^ b ^^^ c ^^^ mul2 d]

/-- InvMixColumns on one column. -/
def invMixColumn (a b c d : Byte) : List Byte :=
  [mul14 a ^^^ mul11 b ^^^ mul13 c ^^^ mul9 d,
   mul9 a ^^^ mul14 b ^^^ mul11 c ^^^ mul13 d,
   mul13 a ^^^ mul9 b ^^^ mul14 c ^^^ mul11 d,
   mul11 a ^^^ mul13 b ^^^ mul9 c ^^^ mul14 d]

/-- MixColumns on the 16-byte state. -/
def mixColumns : List Byte → List Byte
  | [s0, s1, s2, s3, s4, s5, s6, s7, s8, s9, s10, s11, s12, s13, s14, s15] =>
    mixColumn s0 s1 s2 s3 ++ mixColumn s4 s5 s6 s7 ++
      mixColumn s8 s9 s10 s11 ++ mixColumn s12 s13 s14 s15
  | s => s

/-- InvMixColumns on the 16-byte state. -/
def invMixColumns : List Byte → List Byte
  | [s0, s1, s2, s3, s4, s5, s6, s7, s8, s9, s10, s11, s12, s13, s14, s15] =>
    invMixColumn s0 s1 s2 s3 ++ invMixColumn s4 s5 s6 s7 ++
      invMixColumn s8 s9 s10 s11 ++ invMixColumn s12 s13 s14 s15
  | s => s

/-- Bytewise exclusive or of two buffers (`subtle.XORBytes`): as long as the shorter one. -/
def xorBytes (a b : List Byte) : List Byte := List.zipWith (fun x y => x ^^^ y) a b

/-- AddRoundKey. -/
def addRoundKey (s k : List Byte) : List Byte := xorBytes s k

/-- The round constant of round `i` (1-based): `x^(i-1)` in GF(2^8). -/
def rcon : Nat → Byte
  | 0 => 0
  | 1 => 1
  | n + 1 => xtime (rcon n)

/-- The word `temp` that the key expansion xors into `w[i - nk]`, from `w[i-1] = [a, b, c, d]`. -/
def expandStep (nk i : Nat) (a b c d : Byte) : List Byte :=
  if i % nk = 0 then
    [subByte b ^^^ rcon (i / nk), subByte c, subByte d, subByte a]
  else if 6 < nk ∧ i % nk = 4 then
    [subByte a, subByte b, subByte c, subByte d]
  else [a, b, c, d]

/-- Key expansion loop: `w` holds the expanded key so far (4 bytes per word), `i` is the index of
the next word and `n` the number of words still to produce. -/
def expandLoop (nk : Nat) : Nat → Nat → List Byte → List Byte
  | 0, _, w => w
  | n + 1, i, w =>
    let t := expandStep nk i (w.getD (4 * i - 4) 0) (w.getD (4 * i - 3) 0)
      (w.getD (4 * i - 2) 0) (w.getD (4 * i - 1) 0)
    let p := (List.range 4).map (fun j => w.getD (4 * (i - nk) + j) 0)
    expandLoop nk n (i + 1) (w ++ xorBytes p t)

/-- The expanded key: `4 * (nr + 1)` words, `nr = nk + 6` rounds. -/
def expandKey (key : List Byte) : List Byte :=
  let nk := key.length / 4
  expandLoop nk (4 * (nk + 7) - nk) nk key

/-- The round keys, 16 bytes each, first round first. -/
def roundKeys (key : List Byte) : List (List Byte) :=
  let w := expandKey key
  (List.range (key.length / 4 + 7)).map
    (fun r => (List.range 16).map (fun j => w.getD (16 * r + j) 0))

/-- The rounds of the cipher after the initial AddRoundKey: every round but the last mixes
columns. -/
def encryptRounds (s : List Byte) : List (List Byte) → List Byte
  | [] => s
  | [k] => addRoundKey (shiftRows (subBytes s)) k
  | k :: ks => encryptRounds (addRoundKey (mixColumns (shiftRows (subBytes s))) k) ks

/-- The rounds of the inverse cipher, undoing `encryptRounds` last round first. -/
def decryptRounds (c : List Byte) : List (List Byte) → List Byte
  | [] => c
  | [k] => invSubBytes (invShiftRows (addRoundKey c k))
  | k :: ks => invSubBytes (invShiftRows (invMixColumns (addRoundKey (decryptRounds c ks) k)))

/-- The method `Block.Encrypt` on one 16-byte block, for a cipher built from `key`. -/
def encryptBlock (key blk : List Byte) : List Byte :=
  match roundKeys key with
  | [] => blk
  | k0 :: ks => encryptRounds (addRoundKey blk k0) ks

/-- The method `Block.Decrypt` on one 16-byte block, for a cipher built from `key`. -/
def decryptBlock (key blk : List Byte) : List Byte :=
  match roundKeys key with
  | [] => blk
  | k0 :: ks => addRoundKey (decryptRounds blk ks) k0

end AES


/-! ## Go values: results, panics, errors -/

/-- The `error` values the package and the library calls it makes can return. -/
inductive GoError where
  /-- The error `aes.KeySizeError(n)` of `aes.NewCipher`. -/
  | keySize (n : Nat)
  /-- The error `errors.New("HMAC mismatch")` of `Decrypt`. -/
  | hmacMismatch
  /-- The error `errors.New("HMAC missing")` of `Verify`. -/
  | hmacMissing
  /-- An error of `rand.Read`. -/
  | randRead
  /-- The error `strconv.ErrSyntax` of `strconv.Atoi`, with the offending text. -/
  | atoiSyntax (s : List Byte)
  /-- The error `strconv.ErrRange` of `strconv.Atoi`, with the offending text. -/
  | atoiRange (s : List Byte)
  /-- The error `hex.ErrLength`. -/
  | hexLength
  /-- The error `hex.InvalidByteError(b)`. -/
  | hexInvalidByte (b : Byte)
  /-- The error `base64.CorruptInputError(offset)`. -/
  | base64Corrupt (offset : Nat)
  /-- An error of `encoding/gob` or of `io`, by its message (without the values it quotes). -/
  | gob (msg : String)
  deriving DecidableEq, Repr

deriving instance DecidableEq for Except

/-- What a call does: it returns its results, or it panics. -/
inductive Outcome (α : Type) where
  | returned (results : α)
  | panicked (msg : String)
  deriving DecidableEq, Repr

/-- Sequencing of calls: a panic stops the caller. -/
def Outcome.andThen {α β : Type} (x : Outcome α) (f : α → Outcome β) : Outcome β :=
  match x with
  | .returned a => f a
  | .panicked m => .panicked m

/-- The buffer `make([]byte, n)`. -/
def zeros (n : Nat) : List Byte := List.replicate n 0

/-- The builtin `copy(dst, src)`: the first `min (len dst) (len src)` bytes of `dst` are replaced
by those of `src`. -/
def copyInto (dst src : List Byte) : List Byte :=
  src.take dst.length ++ dst.drop src.length

/-! ## blocks/types: the Container -/

/-- The signed block `types.Container`. -/
structure Container where
  Iv : List Byte
  Length : List Byte
  Data : List Byte
  Hmac : List Byte
  deriving DecidableEq, Repr

/-- The zero value `types.Container{}`. -/
def Container.zero : Container := ⟨[], [], [], []⟩

/-- The type `types.EncodingFunc`: a function from bytes to bytes and an error. -/
abbrev EncodingFunc := List Byte → List Byte × Option GoError

/-! ## crypto/cipher: CBC mode over AES -/

/-- The call `aes.NewCipher(key)`: keys of 16, 24 and 32 bytes give a cipher (held as its key),
every other length is a `KeySizeError`. -/
def newCipher (key : List Byte) : Except GoError (List Byte) :=
  if key.length = 16 ∨ key.length = 24 ∨ key.length = 32 then .ok key
  else .error (.keySize key.length)

/-- The block size `block.BlockSize()` of AES. -/
def blockSize : Nat := 16

/-- The state of a `cipher.BlockMode` for CBC: the cipher and the chaining value, which every
`CryptBlocks` call updates. -/
structure CBC where
  block : List Byte
  iv : List Byte
  deriving DecidableEq, Repr

/-- The call `cipher.NewCBCEncrypter(block, iv)`. -/
def newCBCEncrypter (block iv : List Byte) : Outcome CBC :=
  if iv.length ≠ blockSize then
    .panicked "cipher.NewCBCEncrypter: IV length must equal block size"
  else .returned ⟨block, iv⟩

/-- The call `cipher.NewCBCDecrypter(block, iv)`. -/
def newCBCDecrypter (block iv : List Byte) : Outcome CBC :=
  if iv.length ≠ blockSize then
    .panicked "cipher.NewCBCDecrypter: IV length must equal block size"
  else .returned ⟨block, iv⟩

/-- CBC encryption of `n` blocks of `src` from the chaining value `iv`: the ciphertext and the
chaining value left behind (the last ciphertext block). -/
def cbcEncryptBlocks (block : List Byte) : Nat → List Byte → List Byte → List Byte × List Byte
  | 0, iv, _ => ([], iv)
  | n + 1, iv, src =>
    let c := AES.encryptBlock block (AES.xorBytes (src.take blockSize) iv)
    let r := cbcEncryptBlocks block n c (src.drop blockSize)
    (c ++ r.1, r.2)

/-- CBC decryption of `n` blocks of `src` from the chaining value `iv`: the plaintext and the
chaining value left behind (the last ciphertext block). -/
def cbcDecryptBlocks (block : List Byte) : Nat → List Byte → List Byte → List Byte × List Byte
  | 0, iv, _ => ([], iv)
  | n + 1, iv, src =>
    let p := AES.xorBytes (AES.decryptBlock block (src.take blockSize)) iv
    let r := cbcDecryptBlocks block n (src.take blockSize) (src.drop blockSize)
    (p ++ r.1, r.2)

/-- The method `CryptBlocks(dst, src)` of a CBC encrypter: the updated mode and the updated `dst`. -/
def CBC.encryptCryptBlocks (mode : CBC) (dst src : List Byte) : Outcome (CBC × List Byte) :=
  if src.length % blockSize ≠ 0 then .panicked "crypto/cipher: input not full blocks"
  else if dst.length < src.length then .panicked "crypto/cipher: output smaller than input"
  else
    let r := cbcEncryptBlocks mode.block (src.length / blockSize) mode.iv src
    .returned (⟨mode.block, r.2⟩, copyInto dst r.1)

/-- The method `CryptBlocks(dst, src)` of a CBC decrypter: the updated mode and the updated `dst`. -/
def CBC.decryptCryptBlocks (mode : CBC) (dst src : List Byte) : Outcome (CBC × List Byte) :=
  if src.length % blockSize ≠ 0 then .panicked "crypto/cipher: input not full blocks"
  else if dst.length < src.length then .panicked "crypto/cipher: output smaller than input"
  else
    let r := cbcDecryptBlocks mode.block (src.length / blockSize) mode.iv src
    .returned (⟨mode.block, r.2⟩, copyInto dst r.1)

/-! ## crypto/sha256 and crypto/hmac -/

namespace SHA256

/-- The round constants: the first 32 bits of the fractional parts of the cube roots of the
first 64 primes. -/
def roundConstants : List Nat := [
  1116352408, 1899447441, 3049323471, 3921009573, 961987163, 1508970993,
  2453635748, 2870763221, 3624381080, 310598401, 607225278, 1426881987,
  1925078388, 2162078206, 2614888103, 3248222580, 3835390401, 4022224774,
  264347078, 604807628, 770255983, 1249150122, 1555081692, 1996064986,
  2554220882, 2821834349, 2952996808, 3210313671, 3336571891, 3584528711,
  113926993, 338241895, 666307205, 773529912, 1294757372, 1396182291,
  1695183700, 1986661051, 2177026350, 2456956037, 2730485921, 2820302411,
  3259730800, 3345764771, 3516065817, 3600352804, 4094571909, 275423344,
  430227734, 506948616, 659060556, 883997877, 958139571, 1322822218,
  1537002063, 1747873779, 1955562222, 2024104815, 2227730452, 2361852424,
  2428436474, 2756734187, 3204031479, 3329325298]

/-- The initial hash value: the first 32 bits of the fractional parts of the square roots of the
first 8 primes. -/
def initialState : List Nat :=
  [1779033703, 3144134277, 1013904242, 2773480762,
   1359893119, 2600822924, 528734635, 1541459225]

/-- Rotation of a 32-bit word to the right. -/
def rotr (x n : Nat) : Nat := ((x >>> n) ||| (x <<< (32 - n))) % 2 ^ 32

/-- Addition of 32-bit words. -/
def add32 (x y : Nat) : Nat := (x + y) % 2 ^ 32

/-- Complement of a 32-bit word. -/
def not32 (x : Nat) : Nat := 2 ^ 32 - 1 - x % 2 ^ 32

def ch (x y z : Nat) : Nat := (x &&& y) ^^^ (not32 x &&& z)
def maj (x y z : Nat) : Nat := (x &&& y) ^^^ (x &&& z) ^^^ (y &&& z)
def bigSigma0 (x : Nat) : Nat := rotr x 2 ^^^ rotr x 13 ^^^ rotr x 22
def bigSigma1 (x : Nat) : Nat := rotr x 6 ^^^ rotr x 11 ^^^ rotr x 25
def smallSigma0 (x : Nat) : Nat := rotr x 7 ^^^ rotr x 18 ^^^ (x >>> 3)
def smallSigma1 (x : Nat) : Nat := rotr x 17 ^^^ rotr x 19 ^^^ (x >>> 10)

/-- The big-endian 32-bit word at byte offset `4 * i` of a block. -/
def wordAt (blk : List Byte) (i : Nat) : Nat :=
  (blk.getD (4 * i) 0).val * 2 ^ 24 + (blk.getD (4 * i + 1) 0).val * 2 ^ 16 +
    (blk.getD (4 * i + 2) 0).val * 2 ^ 8 + (blk.getD (4 * i + 3) 0).val

/-- The message schedule: `n` further words appended to `w`. -/
def schedule : Nat → List Nat → List Nat
  | 0, w => w
  | n + 1, w =>
    let i := w.length
    schedule n (w ++ [add32 (add32 (add32 (smallSigma1 (w.getD (i - 2) 0)) (w.getD (i - 7) 0))
      (smallSigma0 (w.getD (i - 15) 0))) (w.getD (i - 16) 0)])

/-- One round of the compression function on the working variables `a .. h`. -/
def round (v : List Nat) (kw : Nat × Nat) : List Nat :=
  match v with
  | [a, b, c, d, e, f, g, h] =>
    let t1 := add32 (add32 (add32 (add32 h (bigSigma1 e)) (ch e f g)) kw.1) kw.2
    let t2 := add32 (bigSigma0 a) (maj a b c)
    [add32 t1 t2, a, b, c, add32 d t1, e, f, g]
  | _ => v

/-- The compression function: the state after one 64-byte block. -/
def compress (st : List Nat) (blk : List Byte) : List Nat :=
  let w := schedule 48 ((List.range 16).map (wordAt blk))
  let v := (List.zip roundConstants w).foldl round st
  List.zipWith add32 st v

/-- The `n` bytes of `x`, most significant first. -/
def bigEndian (n x : Nat) : List Byte :=
  (List.range n).map (fun i => Fin.ofNat (x / 256 ^ (n - 1 - i) % 256))

/-- The padded message: a 0x80 byte, zero bytes up to 56 modulo 64, and the length in bits as a
big-endian 64-bit number. -/
def pad (msg : List Byte) : List Byte :=
  msg ++ [0x80] ++ zeros ((119 - msg.length % 64) % 64) ++ bigEndian 8 (8 * msg.length % 2 ^ 64)

/-- The state after `n` blocks of `msg`. -/
def hashBlocks : Nat → List Nat → List Byte → List Nat
  | 0, st, _ => st
  | n + 1, st, msg => hashBlocks n (compress st (msg.take 64)) (msg.drop 64)

/-- The digest `sha256.Sum256(msg)`, 32 bytes. -/
def sum256 (msg : List Byte) : List Byte :=
  let p := pad msg
  (hashBlocks (p.length / 64) initialState p).foldr (fun w acc => bigEndian 4 w ++ acc) []

end SHA256

/-- The tag `h.Sum(nil)` of `h := hmac.New(sha256.New, key)` after the bytes `msg` were written to
`h` (in one or several `Write` calls): keys longer than the 64-byte block are hashed first. -/
def hmacSHA256 (key msg : List Byte) : List Byte :=
  let k0 := if 64 < key.length then SHA256.sum256 key else key
  let k := k0 ++ zeros (64 - k0.length)
  SHA256.sum256 (k.map (fun b => b ^^^ 0x5c) ++ SHA256.sum256 (k.map (fun b => b ^^^ 0x36) ++ msg))

/-- The comparison `hmac.Equal(mac1, mac2)`: true exactly when the two tags are the same bytes. -/
def hmacEqual (mac1 mac2 : List Byte) : Bool := decide (mac1 = mac2)

/-! ## strconv and strings -/

/-- The ASCII digit of `d < 10`. -/
def digitByte (d : Nat) : Byte := Fin.ofNat (48 + d % 10)

/-- The decimal digits of `n`, most significant first, put in front of `acc`. -/
def itoaLoop : Nat → Nat → List Byte → List Byte
  | 0, _, acc => acc
  | fuel + 1, n, acc =>
    if n / 10 = 0 then digitByte n :: acc else itoaLoop fuel (n / 10) (digitByte n :: acc)

/-- The text `strconv.Itoa(n)` of a non-negative `n`. -/
def itoa (n : Nat) : List Byte := itoaLoop (n + 1) n []

/-- What the digit loop of `strconv.ParseUint` finds. -/
inductive Digits where
  | value (n : Nat)
  | syntaxError
  | rangeError
  deriving DecidableEq, Repr

/-- The digit loop of `strconv.ParseUint(s, 10, 64)` from the value `acc`: a byte that is not a
decimal digit is a syntax error, a value that leaves 64 bits is a range error, whichever comes
first. -/
def parseDigits : List Byte → Nat → Digits
  | [], acc => .value acc
  | c :: cs, acc =>
    if 48 ≤ c.val ∧ c.val ≤ 57 then
      if 2 ^ 64 / 10 + 1 ≤ acc then .rangeError
      else if 2 ^ 64 ≤ acc * 10 + (c.val - 48) then .rangeError
      else parseDigits cs (acc * 10 + (c.val - 48))
    else .syntaxError

/-- The call `strconv.Atoi(s)` for a 64-bit `int`: an optional sign, then one or more decimal
digits; a value outside the `int` range is a range error. -/
def atoi (s : List Byte) : Except GoError Int :=
  let neg := s.head? = some 45
  let body := if s.head? = some 45 ∨ s.head? = some 43 then s.drop 1 else s
  if body = [] then .error (.atoiSyntax s)
  else
    match parseDigits body 0 with
    | .syntaxError => .error (.atoiSyntax s)
    | .rangeError => .error (.atoiRange s)
    | .value n =>
      if neg then (if 2 ^ 63 < n then .error (.atoiRange s) else .ok (-(n : Int)))
      else (if 2 ^ 63 ≤ n then .error (.atoiRange s) else .ok (n : Int))

/-- The call `strings.Replace(s, "\x00", "", -1)`: every zero byte is removed. -/
def removeNul (s : List Byte) : List Byte := s.filter (fun b => b ≠ 0)


/-! ## blocks/aes.go -/

/-- The process-wide source behind `crypto/rand`: the bytes it hands out next, by position, or
`none` when reading from it fails. -/
abbrev RandSource := Option (Nat → Byte)

/-- The call `rand.Read(buf)`: the buffer filled with random bytes, or an error. -/
def randRead (rnd : RandSource) (buf : List Byte) : List Byte × Option GoError :=
  match rnd with
  | none => (buf, some .randRead)
  | some f => ((List.range buf.length).map f, none)

/-- The function `signContainer`: the tag over `Iv`, `Length` and `Data`, written to `Hmac`. -/
def signContainer (c : Container) (key : List Byte) : Container × Option GoError :=
  ({ c with Hmac := hmacSHA256 key (c.Iv ++ c.Length ++ c.Data) }, none)

/-- The buffer `clearLength` of `Encrypt`: one block of zero bytes with the decimal text of
`len(data)` copied over its head. -/
def clearLength (data : List Byte) : List Byte :=
  copyInto (zeros blockSize) (itoa data.length)

/-- The buffer `data` of `Encrypt` after its padding step: a length that is not a multiple of
the block size is brought to the next one with zero bytes. -/
def padData (data : List Byte) : List Byte :=
  if data.length % blockSize ≠ 0 then
    copyInto (zeros (data.length + (blockSize - data.length % blockSize))) data
  else data

/-- The function `Encrypt`, with the random source it draws the IV from. -/
def Encrypt (data key : List Byte) (rnd : RandSource) : Outcome (Container × Option GoError) :=
  match newCipher key with
  | .error err => .returned (Container.zero, some err)
  | .ok block =>
    let clearLength := clearLength data
    let lengthBuf := copyInto (zeros blockSize) clearLength
    let data := padData data
    let dataBuf := zeros data.length
    match randRead rnd (zeros blockSize) with
    | (_, some err) => .returned (Container.zero, some err)
    | (iv, none) =>
      (newCBCEncrypter block iv).andThen fun mode =>
      (mode.encryptCryptBlocks lengthBuf clearLength).andThen fun r1 =>
      (r1.1.encryptCryptBlocks dataBuf data).andThen fun r2 =>
      match signContainer ⟨iv, r1.2, r2.2, []⟩ key with
      | (_, some err) => .returned (Container.zero, some err)
      | (signedBlock, none) => .returned (signedBlock, none)

/-- The function `Decrypt`. -/
def Decrypt (signedBlock : Container) (key : List Byte) : Outcome (List Byte × Option GoError) :=
  if !hmacEqual (hmacSHA256 key (signedBlock.Iv ++ signedBlock.Length ++ signedBlock.Data))
      signedBlock.Hmac then
    .returned ([], some .hmacMismatch)
  else
    match newCipher key with
    | .error err => .returned ([], some err)
    | .ok block =>
      (newCBCDecrypter block signedBlock.Iv).andThen fun mode =>
      (mode.decryptCryptBlocks (zeros signedBlock.Length.length) signedBlock.Length).andThen
        fun r1 =>
      (r1.1.decryptCryptBlocks (zeros signedBlock.Data.length) signedBlock.Data).andThen fun r2 =>
      match atoi (removeNul r1.2) with
      | .error err => .returned ([], some err)
      | .ok originalLength =>
        if originalLength < 0 ∨ (r2.2.length : Int) < originalLength then
          .panicked "runtime error: slice bounds out of range"
        else .returned (r2.2.take originalLength.toNat, none)

/-- The function `Verify`. -/
def Verify (signedBlock : Container) (key : List Byte) : Bool × Option GoError :=
  if signedBlock.Hmac.length = 0 then (false, some .hmacMissing)
  else (hmacEqual (hmacSHA256 key signedBlock.Data) signedBlock.Hmac, none)

/-! ## blocks/aes_test.go -/

/-- The constant `testKey`, the text "dontuserandomkey". -/
def testKey : List Byte :=
  [100, 111, 110, 116, 117, 115, 101, 114, 97, 110, 100, 111, 109, 107, 101, 121]

/-- The helper `musthmac`: the tag of `data` alone. -/
def musthmac (data key : List Byte) : List Byte := hmacSHA256 key data

/-- The Container of the tests "Valid HMAC" of `TestVerify` and "Missing IV" of `TestDecrypt`:
only `Data` and the tag of `Data` under `testKey`. -/
def dataOnlyContainer : Container := ⟨[], [], [1, 2, 3, 4], musthmac [1, 2, 3, 4] testKey⟩

/-- A Container that is authentic under `testKey` and announces more bytes than it holds: the
IV is zero, `Length` is the AES-128 encryption under `testKey` of the header of a five-byte
plaintext (the digit 5 and fifteen zero bytes), `Data` is empty and `Hmac` is the HMAC-SHA256 of
`Iv` and `Length`. -/
def outOfRangeContainer : Container :=
  ⟨zeros 16,
    [142, 97, 241, 16, 181, 233, 148, 42, 19, 213, 121, 170, 12, 27, 218, 241],
    [],
    [180, 35, 230, 131, 239, 151, 101, 134, 27, 132, 92, 28, 202, 185, 115, 72,
     98, 141, 211, 30, 68, 25, 134, 188, 247, 59, 157, 144, 200, 185, 190, 202]⟩


/-! ## blocks/interface.go: the transport codecs -/

/-- The function `NoEncoding`. -/
def NoEncoding : EncodingFunc := fun data => (data, none)

/-- The table `hextable` of `encoding/hex`: the digits `0-9a-f`. -/
def hextable : List Byte :=
  [48, 49, 50, 51, 52, 53, 54, 55, 56, 57, 97, 98, 99, 100, 101, 102]

/-- The call `hex.Encode(dst, src)` on a `dst` of `hex.EncodedLen(len(src))` bytes: two digits
for every byte, high nibble first. -/
def hexEncode : List Byte → List Byte
  | [] => []
  | v :: rest => hextable.getD (v.val / 16) 0 :: hextable.getD (v.val % 16) 0 :: hexEncode rest

/-- The value of a hexadecimal digit (`reverseHexTable`): `0-9`, `a-f` and `A-F`. -/
def fromHexChar (c : Byte) : Option Nat :=
  if 48 ≤ c.val ∧ c.val ≤ 57 then some (c.val - 48)
  else if 97 ≤ c.val ∧ c.val ≤ 102 then some (c.val - 97 + 10)
  else if 65 ≤ c.val ∧ c.val ≤ 70 then some (c.val - 65 + 10)
  else none

/-- The call `hex.Decode(dst, src)` on a `dst` of `hex.DecodedLen(len(src))` bytes: the decoded
bytes, or the first error met. -/
def hexDecode : List Byte → Except GoError (List Byte)
  | [] => .ok []
  | [p] => if (fromHexChar p).isNone then .error (.hexInvalidByte p) else .error .hexLength
  | p :: q :: rest =>
    match fromHexChar p, fromHexChar q with
    | none, _ => .error (.hexInvalidByte p)
    | some _, none => .error (.hexInvalidByte q)
    | some a, some b =>
      match hexDecode rest with
      | .error err => .error err
      | .ok out => .ok (Fin.ofNat (a * 16 + b) :: out)

/-- The function `HexEncoding`. -/
def HexEncoding : EncodingFunc := fun data => (hexEncode data, none)

/-- The function `HexDecoding`. -/
def HexDecoding : EncodingFunc := fun data =>
  match hexDecode data with
  | .error err => ([], some err)
  | .ok out => (out, none)

/-- The alphabet of `base64.StdEncoding`. -/
def base64Alphabet : List Byte :=
  [65, 66, 67, 68, 69, 70, 71, 72, 73, 74, 75, 76, 77, 78, 79, 80, 81, 82, 83, 84, 85, 86, 87, 88,
   89, 90, 97, 98, 99, 100, 101, 102, 103, 104, 105, 106, 107, 108, 109, 110, 111, 112, 113, 114,
   115, 116, 117, 118, 119, 120, 121, 122, 48, 49, 50, 51, 52, 53, 54, 55, 56, 57, 43, 47]

/-- The character of a 6-bit value (`enc.encode[v]`). -/
def base64Char (v : Nat) : Byte := base64Alphabet.getD v 0

/-- The padding character `=`. -/
def base64Pad : Byte := 61

/-- The call `base64.StdEncoding.Encode(dst, src)` on a `dst` of `EncodedLen(len(src))` bytes:
four characters for every three bytes, the last group padded with `=`. -/
def base64Encode : List Byte → List Byte
  | [] => []
  | [a] =>
    let val := a.val * 65536
    [base64Char (val / 262144 % 64), base64Char (val / 4096 % 64), base64Pad, base64Pad]
  | [a, b] =>
    let val := a.val * 65536 + b.val * 256
    [base64Char (val / 262144 % 64), base64Char (val / 4096 % 64), base64Char (val / 64 % 64),
      base64Pad]
  | a :: b :: c :: rest =>
    let val := a.val * 65536 + b.val * 256 + c.val
    base64Char (val / 262144 % 64) :: base64Char (val / 4096 % 64) ::
      base64Char (val / 64 % 64) :: base64Char (val % 64) :: base64Encode rest

/-- The 6-bit value of a character of the alphabet (`enc.decodeMap`), `none` for every other
byte. -/
def base64Sextet (c : Byte) : Option Nat :=
  if 65 ≤ c.val ∧ c.val ≤ 90 then some (c.val - 65)
  else if 97 ≤ c.val ∧ c.val ≤ 122 then some (c.val - 97 + 26)
  else if 48 ≤ c.val ∧ c.val ≤ 57 then some (c.val - 48 + 52)
  else if c.val = 43 then some 62
  else if c.val = 47 then some 63
  else none

/-- A carriage return or line feed, which the decoder skips. -/
def isNewline (c : Byte) : Bool := c.val = 10 || c.val = 13

/-- The input after the newlines at its head, and the offset reached. -/
def skipNewlines : List Byte → Nat → List Byte × Nat
  | [], si => ([], si)
  | c :: rest, si => if isNewline c then skipNewlines rest (si + 1) else (c :: rest, si)

/-- The bytes of a quantum of `dlen` characters, whose 6-bit values are `dbuf`: `dlen - 1`
bytes. -/
def quantumBytes (dbuf : List Nat) : List Byte :=
  let val := dbuf.getD 0 0 * 262144 + dbuf.getD 1 0 * 4096 + dbuf.getD 2 0 * 64 + dbuf.getD 3 0
  ([Fin.ofNat (val / 65536 % 256), Fin.ofNat (val / 256 % 256), Fin.ofNat (val % 256)] :
    List Byte).take (dbuf.length - 1)

/-- The loop of `base64.StdEncoding.Decode` over `decodeQuantum`: `src` is the input left, `si`
its offset and `dbuf` the 6-bit values of the quantum being read. -/
def base64DecodeFrom : List Byte → Nat → List Nat → Except GoError (List Byte)
  | [], si, dbuf => if dbuf = [] then .ok [] else .error (.base64Corrupt (si - dbuf.length))
  | c :: rest, si, dbuf =>
    match base64Sextet c with
    | some v =>
      if dbuf.length = 3 then
        match base64DecodeFrom rest (si + 1) [] with
        | .error err => .error err
        | .ok out => .ok (quantumBytes (dbuf ++ [v]) ++ out)
      else base64DecodeFrom rest (si + 1) (dbuf ++ [v])
    | none =>
      if isNewline c then base64DecodeFrom rest (si + 1) dbuf
      else if c ≠ base64Pad then .error (.base64Corrupt si)
      else if dbuf.length < 2 then .error (.base64Corrupt si)
      else if dbuf.length = 2 then
        match skipNewlines rest (si + 1) with
        | ([], si2) => .error (.base64Corrupt si2)
        | (d :: rest2, si2) =>
          if d ≠ base64Pad then .error (.base64Corrupt (si2 - 1))
          else
            match skipNewlines rest2 (si2 + 1) with
            | ([], _) => .ok (quantumBytes dbuf)
            | (_ :: _, si3) => .error (.base64Corrupt si3)
      else
        match skipNewlines rest (si + 1) with
        | ([], _) => .ok (quantumBytes dbuf)
        | (_ :: _, si3) => .error (.base64Corrupt si3)

/-- The call `base64.StdEncoding.Decode(dst, src)` on a `dst` of `DecodedLen(len(src))` bytes. -/
def base64Decode (src : List Byte) : Except GoError (List Byte) := base64DecodeFrom src 0 []

/-- The function `Base64Encoding`. -/
def Base64Encoding : EncodingFunc := fun data => (base64Encode data, none)

/-- The function `Base64Decoding`. -/
def Base64Decoding : EncodingFunc := fun data =>
  match base64Decode data with
  | .error err => ([], some err)
  | .ok out => (out, none)


/-! ## encoding/gob: the wire format of a Container

The encoder side is the stream `gob.NewEncoder(&buff).Encode(c)` writes for a `Container` when
it is the first type the process hands to gob, so that it gets the first user type id, 65.  The
decoder side is `gob.NewDecoder(buff).Decode(&c)` into a zero `Container`. -/

namespace Gob

end Gob

/-! ## blocks/aes.go: the envelope serializer -/

/-- The first `n` blocks of a message. -/
def blocksOf : Nat → List Byte → List (List Byte)
  | 0, _ => []
  | n + 1, msg => msg.take 16 :: blocksOf n (msg.drop 16)

/-- The ciphertext blocks of CBC: each plaintext block is xored with the previous ciphertext
block, the IV for the first, and encrypted. -/
def cbcChain (key : List Byte) : List Byte → List (List Byte) → List (List Byte)
  | _, [] => []
  | prev, p :: ps =>
    AES.encryptBlock key (AES.xorBytes p prev) ::
      cbcChain key (AES.encryptBlock key (AES.xorBytes p prev)) ps

/-- The plaintext blocks of CBC: each ciphertext block is decrypted and xored with the previous
ciphertext block, the IV for the first. -/
def cbcUnchain (key : List Byte) : List Byte → List (List Byte) → List (List Byte)
  | _, [] => []
  | prev, c :: cs => AES.xorBytes (AES.decryptBlock key c) prev :: cbcUnchain key c cs

/-- The bytes of a list of blocks. -/
def concatBlocks : List (List Byte) → List Byte
  | [] => []
  | b :: bs => b ++ concatBlocks bs

/-- One CBC encryption of a message of whole blocks under a key and an IV. -/
def cbcEncrypt (key iv msg : List Byte) : List Byte :=
  concatBlocks (cbcChain key iv (blocksOf (msg.length / 16) msg))

/-- One CBC decryption of a message of whole blocks under a key and an IV. -/
def cbcDecrypt (key iv msg : List Byte) : List Byte :=
  concatBlocks (cbcUnchain key iv (blocksOf (msg.length / 16) msg))

/-! ## Containers of the examples -/

/-- The Container `Encrypt` returns for the plaintext `[1, 2, 3, 4]` under `testKey` when the
random source hands out zero bytes. -/
def encryptedFour : Container :=
  ⟨zeros 16,
    [140, 126, 123, 19, 246, 135, 131, 140, 44, 171, 26, 240, 116, 226, 208, 3],
    [129, 99, 74, 156, 130, 250, 106, 213, 232, 10, 187, 16, 180, 196, 111, 214],
    [3, 251, 168, 86, 247, 143, 2, 12, 31, 212, 91, 113, 102, 238, 222, 176,
     18, 116, 38, 21, 28, 210, 32, 29, 244, 27, 65, 69, 183, 137, 88, 59]⟩

/-- The Container `encryptedFour` with the length header "+4" in place of "4": `Length` and
`Data` are the CBC encryption under `testKey` and the zero IV of the header "+4" and the padded
plaintext `[1, 2, 3, 4]`, and `Hmac` is the tag of the three fields. -/
def plusSignContainer : Container :=
  ⟨zeros 16,
    [149, 33, 127, 248, 48, 10, 200, 134, 118, 195, 69, 95, 187, 170, 2, 68],
    [152, 166, 105, 92, 134, 98, 74, 142, 173, 193, 214, 254, 250, 33, 244, 179],
    [219, 235, 245, 110, 11, 88, 251, 189, 98, 34, 214, 126, 29, 171, 225, 213,
     151, 11, 31, 10, 48, 114, 105, 4, 93, 94, 92, 216, 22, 226, 40, 202]⟩

/-! ## Signed decimal text -/

/-- The value of a run of decimal digits read after the value `acc`. -/
def decimalFrom : List Byte → Nat → Nat
  | [], acc => acc
  | c :: cs, acc => decimalFrom cs (acc * 10 + (c.val - 48))

/-- Every byte is an ASCII digit. -/
def allDigits (s : List Byte) : Bool := s.all (fun c => 48 ≤ c.val && c.val ≤ 57)

/-- The integer a text spells: an optional `+` or `-`, then one or more ASCII digits; `none` for
any other text. -/
def signedDecimal (s : List Byte) : Option Int :=
  let body := if s.head? = some 45 ∨ s.head? = some 43 then s.drop 1 else s
  if body ≠ [] ∧ allDigits body = true then
    some (if s.head? = some 45 then -(decimalFrom body 0 : Int) else (decimalFrom body 0 : Int))
  else none

/-! ## Padded base64 text -/

/-- A character of the standard base64 alphabet: `A-Z`, `a-z`, `0-9`, `+` or `/`. -/
def inAlphabet (c : Byte) : Bool :=
  (65 ≤ c.val && c.val ≤ 90) || (97 ≤ c.val && c.val ≤ 122) || (48 ≤ c.val && c.val ≤ 57) ||
    c.val == 43 || c.val == 47

/-- Padded base64 text read from position `j` of a group of four: characters of the alphabet,
and then only the `=` characters that complete the last group, one after three characters, two
after two. -/
def paddedFrom : List Byte → Nat → Bool
  | [], j => j == 0
  | c :: rest, j =>
    if inAlphabet c then paddedFrom rest ((j + 1) % 4)
    else c == 61 && ((j == 3 && rest == []) || (j == 2 && rest == [61]))

/-- Padded base64 text: groups of four characters of the alphabet, the last one completed with
`=` when it is short. -/
def isPaddedBase64 (s : List Byte) : Bool := paddedFrom s 0


/-! ## The inverse cipher undoes the cipher -/

namespace AES

theorem xor_val (a b : Byte) : (a ^^^ b).val = a.val ^^^ b.val := by
  show (a.val ^^^ b.val) % 256 = a.val ^^^ b.val
  exact Nat.mod_eq_of_lt (Nat.xor_lt_two_pow (n := 8) a.isLt b.isLt)

theorem xor_assoc (a b c : Byte) : a ^^^ b ^^^ c = a ^^^ (b ^^^ c) := by
  apply Fin.ext; simp only [xor_val, Nat.xor_assoc]

theorem xor_comm (a b : Byte) : a ^^^ b = b ^^^ a := by
  apply Fin.ext; simp only [xor_val, Nat.xor_comm]

theorem xor_self (a : Byte) : a ^^^ a = 0 := by
  apply Fin.ext; simp [xor_val]

theorem xor_zero (a : Byte) : a ^^^ 0 = a := by
  apply Fin.ext; simp [xor_val]

theorem zero_xor (a : Byte) : 0 ^^^ a = a := by
  apply Fin.ext; simp [xor_val]

theorem invSubByte_subByte : ∀ b : Byte, invSubByte (subByte b) = b := by
  decide!

theorem xtime_lt : ∀ a : Byte, ((a.val <<< 1) ^^^ ((a.val >>> 7) * 0x11b)) < 256 := by
  decide!

theorem xtime_val (a : Byte) : (xtime a).val = (a.val <<< 1) ^^^ ((a.val >>> 7) * 0x11b) := by
  show ((a.val <<< 1) ^^^ ((a.val >>> 7) * 0x11b)) % 256 = _
  exact Nat.mod_eq_of_lt (xtime_lt a)

theorem nat_shiftLeft_xor (a b n : Nat) : (a ^^^ b) <<< n = (a <<< n) ^^^ (b <<< n) := by
  apply Nat.eq_of_testBit_eq
  intro i
  simp only [Nat.testBit_shiftLeft, Nat.testBit_xor]
  cases decide (i ≥ n) <;> simp

theorem nat_shiftRight_xor (a b n : Nat) : (a ^^^ b) >>> n = (a >>> n) ^^^ (b >>> n) := by
  apply Nat.eq_of_testBit_eq
  intro i
  simp only [Nat.testBit_shiftRight, Nat.testBit_xor]

theorem bit_mul_xor : ∀ p < 2, ∀ q < 2, (p ^^^ q) * 0x11b = (p * 0x11b) ^^^ (q * 0x11b) := by
  decide

theorem xtime_xor (a b : Byte) : xtime (a ^^^ b) = xtime a ^^^ xtime b := by
  apply Fin.ext
  have ha : a.val >>> 7 < 2 := by
    rw [Nat.shiftRight_eq_div_pow]; have := a.isLt; omega
  have hb : b.val >>> 7 < 2 := by
    rw [Nat.shiftRight_eq_div_pow]; have := b.isLt; omega
  rw [xor_val, xtime_val, xtime_val, xtime_val, xor_val, nat_shiftLeft_xor, nat_shiftRight_xor,
    bit_mul_xor _ ha _ hb]
  ac_rfl

theorem mul3_xor (a b : Byte) : mul3 (a ^^^ b) = mul3 a ^^^ mul3 b := by
  simp only [mul3, xtime_xor]; ac_rfl
theorem mul9_xor (a b : Byte) : mul9 (a ^^^ b) = mul9 a ^^^ mul9 b := by
  simp only [mul9, xtime_xor]; ac_rfl
theorem mul11_xor (a b : Byte) : mul11 (a ^^^ b) = mul11 a ^^^ mul11 b := by
  simp only [mul11, xtime_xor]; ac_rfl
theorem mul13_xor (a b : Byte) : mul13 (a ^^^ b) = mul13 a ^^^ mul13 b := by
  simp only [mul13, xtime_xor]; ac_rfl
theorem mul14_xor (a b : Byte) : mul14 (a ^^^ b) = mul14 a ^^^ mul14 b := by
  simp only [mul14, xtime_xor]; ac_rfl

/-- The products of the rows of the inverse matrix with the columns of the matrix. -/
theorem mix_diag : ∀ a : Byte,
    mul14 (mul2 a) ^^^ mul11 a ^^^ mul13 a ^^^ mul9 (mul3 a) = a ∧
    mul14 (mul3 a) ^^^ mul11 (mul2 a) ^^^ mul13 a ^^^ mul9 a = 0 ∧
    mul14 a ^^^ mul11 (mul3 a) ^^^ mul13 (mul2 a) ^^^ mul9 a = 0 ∧
    mul14 a ^^^ mul11 a ^^^ mul13 (mul3 a) ^^^ mul9 (mul2 a) = 0 ∧
    mul9 (mul2 a) ^^^ mul14 a ^^^ mul11 a ^^^ mul13 (mul3 a) = 0 ∧
    mul9 (mul3 a) ^^^ mul14 (mul2 a) ^^^ mul11 a ^^^ mul13 a = a ∧
    mul9 a ^^^ mul14 (mul3 a) ^^^ mul11 (mul2 a) ^^^ mul13 a = 0 ∧
    mul9 a ^^^ mul14 a ^^^ mul11 (mul3 a) ^^^ mul13 (mul2 a) = 0 ∧
    mul13 (mul2 a) ^^^ mul9 a ^^^ mul14 a ^^^ mul11 (mul3 a) = 0 ∧
    mul13 (mul3 a) ^^^ mul9 (mul2 a) ^^^ mul14 a ^^^ mul11 a = 0 ∧
    mul13 a ^^^ mul9 (mul3 a) ^^^ mul14 (mul2 a) ^^^ mul11 a = a ∧
    mul13 a ^^^ mul9 a ^^^ mul14 (mul3 a) ^^^ mul11 (mul2 a) = 0 ∧
    mul11 (mul2 a) ^^^ mul13 a ^^^ mul9 a ^^^ mul14 (mul3 a) = 0 ∧
    mul11 (mul3 a) ^^^ mul13 (mul2 a) ^^^ mul9 a ^^^ mul14 a = 0 ∧
    mul11 a ^^^ mul13 (mul3 a) ^^^ mul9 (mul2 a) ^^^ mul14 a = 0 ∧
    mul11 a ^^^ mul13 a ^^^ mul9 (mul3 a) ^^^ mul14 (mul2 a) = a := by
  decide!


theorem invMixColumn_mixColumn (a b c d : Byte) :
    (match mixColumn a b c d with
     | [w, x, y, z] => invMixColumn w x y z
     | _ => []) = [a, b, c, d] := by
  obtain ⟨a1, a2, a3, a4, a5, a6, a7, a8, a9, a10, a11, a12, a13, a14, a15, a16⟩ := mix_diag a
  obtain ⟨b1, b2, b3, b4, b5, b6, b7, b8, b9, b10, b11, b12, b13, b14, b15, b16⟩ := mix_diag b
  obtain ⟨c1, c2, c3, c4, c5, c6, c7, c8, c9, c10, c11, c12, c13, c14, c15, c16⟩ := mix_diag c
  obtain ⟨d1, d2, d3, d4, d5, d6, d7, d8, d9, d10, d11, d12, d13, d14, d15, d16⟩ := mix_diag d
  simp only [mixColumn, invMixColumn, mul9_xor, mul11_xor, mul13_xor, mul14_xor]
  have e0 : mul14 (mul2 a) ^^^ mul14 (mul3 b) ^^^ mul14 c ^^^ mul14 d ^^^
      (mul11 a ^^^ mul11 (mul2 b) ^^^ mul11 (mul3 c) ^^^ mul11 d) ^^^
      (mul13 a ^^^ mul13 b ^^^ mul13 (mul2 c) ^^^ mul13 (mul3 d)) ^^^
      (mul9 (mul3 a) ^^^ mul9 b ^^^ mul9 c ^^^ mul9 (mul2 d)) =
      (mul14 (mul2 a) ^^^ mul11 a ^^^ mul13 a ^^^ mul9 (mul3 a)) ^^^
      (mul14 (mul3 b) ^^^ mul11 (mul2 b) ^^^ mul13 b ^^^ mul9 b) ^^^
      (mul14 c ^^^ mul11 (mul3 c) ^^^ mul13 (mul2 c) ^^^ mul9 c) ^^^
      (mul14 d ^^^ mul11 d ^^^ mul13 (mul3 d) ^^^ mul9 (mul2 d)) := by ac_rfl
  have e1 : mul9 (mul2 a) ^^^ mul9 (mul3 b) ^^^ mul9 c ^^^ mul9 d ^^^
      (mul14 a ^^^ mul14 (mul2 b) ^^^ mul14 (mul3 c) ^^^ mul14 d) ^^^
      (mul11 a ^^^ mul11 b ^^^ mul11 (mul2 c) ^^^ mul11 (mul3 d)) ^^^
      (mul13 (mul3 a) ^^^ mul13 b ^^^ mul13 c ^^^ mul13 (mul2 d)) =
      (mul9 (mul2 a) ^^^ mul14 a ^^^ mul11 a ^^^ mul13 (mul3 a)) ^^^
      (mul9 (mul3 b) ^^^ mul14 (mul2 b) ^^^ mul11 b ^^^ mul13 b) ^^^
      (mul9 c ^^^ mul14 (mul3 c) ^^^ mul11 (mul2 c) ^^^ mul13 c) ^^^
      (mul9 d ^^^ mul14 d ^^^ mul11 (mul3 d) ^^^ mul13 (mul2 d)) := by ac_rfl
  have e2 : mul13 (mul2 a) ^^^ mul13 (mul3 b) ^^^ mul13 c ^^^ mul13 d ^^^
      (mul9 a ^^^ mul9 (mul2 b) ^^^ mul9 (mul3 c) ^^^ mul9 d) ^^^
      (mul14 a ^^^ mul14 b ^^^ mul14 (mul2 c) ^^^ mul14 (mul3 d)) ^^^
      (mul11 (mul3 a) ^^^ mul11 b ^^^ mul11 c ^^^ mul11 (mul2 d)) =
      (mul13 (mul2 a) ^^^ mul9 a ^^^ mul14 a ^^^ mul11 (mul3 a)) ^^^
      (mul13 (mul3 b) ^^^ mul9 (mul2 b) ^^^ mul14 b ^^^ mul11 b) ^^^
      (mul13 c ^^^ mul9 (mul3 c) ^^^ mul14 (mul2 c) ^^^ mul11 c) ^^^
      (mul13 d ^^^ mul9 d ^^^ mul14 (mul3 d) ^^^ mul11 (mul2 d)) := by ac_rfl
  have e3 : mul11 (mul2 a) ^^^ mul11 (mul3 b) ^^^ mul11 c ^^^ mul11 d ^^^
      (mul13 a ^^^ mul13 (mul2 b) ^^^ mul13 (mul3 c) ^^^ mul13 d) ^^^
      (mul9 a ^^^ mul9 b ^^^ mul9 (mul2 c) ^^^ mul9 (mul3 d)) ^^^
      (mul14 (mul3 a) ^^^ mul14 b ^^^ mul14 c ^^^ mul14 (mul2 d)) =
      (mul11 (mul2 a) ^^^ mul13 a ^^^ mul9 a ^^^ mul14 (mul3 a)) ^^^
      (mul11 (mul3 b) ^^^ mul13 (mul2 b) ^^^ mul9 b ^^^ mul14 b) ^^^
      (mul11 c ^^^ mul13 (mul3 c) ^^^ mul9 (mul2 c) ^^^ mul14 c) ^^^
      (mul11 d ^^^ mul13 d ^^^ mul9 (mul3 d) ^^^ mul14 (mul2 d)) := by ac_rfl
  rw [e0, e1, e2, e3, a1, b2, c3, d4, a5, b6, c7, d8, a9, b10, c11, d12, a13, b14, c15, d16]
  simp only [xor_zero, zero_xor]


/-- A list of sixteen elements, spelt out. -/
theorem eq_of_length_sixteen {α : Type} (s : List α) (h : s.length = 16) :
    ∃ s0 s1 s2 s3 s4 s5 s6 s7 s8 s9 s10 s11 s12 s13 s14 s15,
      s = [s0, s1, s2, s3, s4, s5, s6, s7, s8, s9, s10, s11, s12, s13, s14, s15] := by
  match s, h with
  | [s0, s1, s2, s3, s4, s5, s6, s7, s8, s9, s10, s11, s12, s13, s14, s15], _ =>
    exact ⟨s0, s1, s2, s3, s4, s5, s6, s7, s8, s9, s10, s11, s12, s13, s14, s15, rfl⟩

theorem length_subBytes (s : List Byte) : (subBytes s).length = s.length := by
  simp [subBytes]

theorem length_shiftRows (s : List Byte) (h : s.length = 16) : (shiftRows s).length = 16 := by
  obtain ⟨s0, s1, s2, s3, s4, s5, s6, s7, s8, s9, s10, s11, s12, s13, s14, s15, rfl⟩ :=
    eq_of_length_sixteen s h
  rfl

theorem length_mixColumns (s : List Byte) (h : s.length = 16) : (mixColumns s).length = 16 := by
  obtain ⟨s0, s1, s2, s3, s4, s5, s6, s7, s8, s9, s10, s11, s12, s13, s14, s15, rfl⟩ :=
    eq_of_length_sixteen s h
  rfl

theorem length_xorBytes (a b : List Byte) : (xorBytes a b).length = min a.length b.length := by
  simp [xorBytes]

theorem xorBytes_cancel : ∀ (a k : List Byte), a.length ≤ k.length →
    xorBytes (xorBytes a k) k = a
  | [], _, _ => by simp [xorBytes]
  | _ :: _, [], h => by simp at h
  | x :: a, y :: k, h => by
    have ih := xorBytes_cancel a k (by simpa using h)
    simp only [xorBytes, List.zipWith_cons_cons] at ih ⊢
    rw [ih, xor_assoc, xor_self, xor_zero]

theorem invSubBytes_subBytes (s : List Byte) : invSubBytes (subBytes s) = s := by
  simp [invSubBytes, subBytes, Function.comp_def, invSubByte_subByte]

theorem invShiftRows_shiftRows (s : List Byte) (h : s.length = 16) :
    invShiftRows (shiftRows s) = s := by
  obtain ⟨s0, s1, s2, s3, s4, s5, s6, s7, s8, s9, s10, s11, s12, s13, s14, s15, rfl⟩ :=
    eq_of_length_sixteen s h
  rfl

theorem invMixColumns_mixColumns (s : List Byte) (h : s.length = 16) :
    invMixColumns (mixColumns s) = s := by
  obtain ⟨s0, s1, s2, s3, s4, s5, s6, s7, s8, s9, s10, s11, s12, s13, s14, s15, rfl⟩ :=
    eq_of_length_sixteen s h
  have h0 := invMixColumn_mixColumn s0 s1 s2 s3
  have h1 := invMixColumn_mixColumn s4 s5 s6 s7
  have h2 := invMixColumn_mixColumn s8 s9 s10 s11
  have h3 := invMixColumn_mixColumn s12 s13 s14 s15
  simp only [mixColumn] at h0 h1 h2 h3
  simp only [mixColumns, mixColumn, List.cons_append, List.nil_append, invMixColumns, h0, h1, h2,
    h3]


theorem length_addRoundKey (s k : List Byte) (hs : s.length = 16) (hk : k.length = 16) :
    (addRoundKey s k).length = 16 := by
  simp [addRoundKey, length_xorBytes, hs, hk]

theorem addRoundKey_cancel (s k : List Byte) (hs : s.length = 16) (hk : k.length = 16) :
    addRoundKey (addRoundKey s k) k = s :=
  xorBytes_cancel s k (by omega)

theorem length_encryptRounds : ∀ (ks : List (List Byte)) (s : List Byte), s.length = 16 →
    (∀ k ∈ ks, k.length = 16) → (encryptRounds s ks).length = 16
  | [], s, hs, _ => by simpa [encryptRounds] using hs
  | [k], s, hs, hk => by
    simp only [encryptRounds]
    exact length_addRoundKey _ _ (length_shiftRows _ (by rw [length_subBytes, hs]))
      (hk k (by simp))
  | k :: k' :: ks, s, hs, hk => by
    simp only [encryptRounds]
    apply length_encryptRounds (k' :: ks)
    · exact length_addRoundKey _ _ (length_mixColumns _ (length_shiftRows _
        (by rw [length_subBytes, hs]))) (hk k (by simp))
    · intro x hx
      exact hk x (List.mem_cons_of_mem _ hx)

theorem decryptRounds_encryptRounds : ∀ (ks : List (List Byte)) (s : List Byte),
    s.length = 16 → (∀ k ∈ ks, k.length = 16) → decryptRounds (encryptRounds s ks) ks = s
  | [], s, _, _ => by simp [encryptRounds, decryptRounds]
  | [k], s, hs, hk => by
    have h1 : (subBytes s).length = 16 := by rw [length_subBytes, hs]
    simp only [encryptRounds, decryptRounds]
    rw [addRoundKey_cancel _ _ (length_shiftRows _ h1) (hk k (by simp)),
      invShiftRows_shiftRows _ h1, invSubBytes_subBytes]
  | k :: k' :: ks, s, hs, hk => by
    have h1 : (subBytes s).length = 16 := by rw [length_subBytes, hs]
    have h2 := length_shiftRows _ h1
    have h3 := length_mixColumns _ h2
    have hk0 : k.length = 16 := hk k (by simp)
    simp only [encryptRounds, decryptRounds]
    rw [decryptRounds_encryptRounds (k' :: ks) _ (length_addRoundKey _ _ h3 hk0)
        (fun x hx => hk x (List.mem_cons_of_mem _ hx)),
      addRoundKey_cancel _ _ h3 hk0, invMixColumns_mixColumns _ h2,
      invShiftRows_shiftRows _ h1, invSubBytes_subBytes]

theorem length_of_mem_roundKeys (key k : List Byte) (h : k ∈ roundKeys key) : k.length = 16 := by
  simp only [roundKeys, List.mem_map] at h
  obtain ⟨r, _, rfl⟩ := h
  simp

/-- Encrypting a block gives a block. -/
theorem length_encryptBlock (key blk : List Byte) (h : blk.length = 16) :
    (encryptBlock key blk).length = 16 := by
  have hk := length_of_mem_roundKeys key
  unfold encryptBlock
  generalize roundKeys key = rk at hk
  match rk with
  | [] => exact h
  | k0 :: ks =>
    exact length_encryptRounds ks _ (length_addRoundKey _ _ h (hk k0 (by simp)))
      (fun x hx => hk x (List.mem_cons_of_mem _ hx))

/-- The inverse cipher undoes the cipher on every 16-byte block, for every key. -/
theorem decryptBlock_encryptBlock (key blk : List Byte) (h : blk.length = 16) :
    decryptBlock key (encryptBlock key blk) = blk := by
  have hk := length_of_mem_roundKeys key
  unfold encryptBlock decryptBlock
  generalize roundKeys key = rk at hk
  match rk with
  | [] => rfl
  | k0 :: ks =>
    have hk0 : k0.length = 16 := hk k0 (by simp)
    show addRoundKey (decryptRounds (encryptRounds (addRoundKey blk k0) ks) ks) k0 = blk
    rw [decryptRounds_encryptRounds ks _ (length_addRoundKey _ _ h hk0)
      (fun x hx => hk x (List.mem_cons_of_mem _ hx)), addRoundKey_cancel _ _ h hk0]

theorem length_invSubBytes (s : List Byte) : (invSubBytes s).length = s.length := by
  simp [invSubBytes]

theorem length_invShiftRows (s : List Byte) (h : s.length = 16) :
    (invShiftRows s).length = 16 := by
  obtain ⟨s0, s1, s2, s3, s4, s5, s6, s7, s8, s9, s10, s11, s12, s13, s14, s15, rfl⟩ :=
    eq_of_length_sixteen s h
  rfl

theorem length_invMixColumns (s : List Byte) (h : s.length = 16) :
    (invMixColumns s).length = 16 := by
  obtain ⟨s0, s1, s2, s3, s4, s5, s6, s7, s8, s9, s10, s11, s12, s13, s14, s15, rfl⟩ :=
    eq_of_length_sixteen s h
  rfl

theorem length_decryptRounds : ∀ (ks : List (List Byte)) (c : List Byte), c.length = 16 →
    (∀ k ∈ ks, k.length = 16) → (decryptRounds c ks).length = 16
  | [], c, hc, _ => by simpa [decryptRounds] using hc
  | [k], c, hc, hk => by
    simp only [decryptRounds]
    rw [length_invSubBytes]
    exact length_invShiftRows _ (length_addRoundKey _ _ hc (hk k (by simp)))
  | k :: k' :: ks, c, hc, hk => by
    simp only [decryptRounds]
    rw [length_invSubBytes]
    exact length_invShiftRows _ (length_invMixColumns _ (length_addRoundKey _ _
      (length_decryptRounds (k' :: ks) c hc (fun x hx => hk x (List.mem_cons_of_mem _ hx)))
      (hk k (by simp))))

/-- Decrypting a block gives a block. -/
theorem length_decryptBlock (key blk : List Byte) (h : blk.length = 16) :
    (decryptBlock key blk).length = 16 := by
  have hk := length_of_mem_roundKeys key
  unfold decryptBlock
  generalize roundKeys key = rk at hk
  match rk with
  | [] => exact h
  | k0 :: ks =>
    exact length_addRoundKey _ _
      (length_decryptRounds ks _ h (fun x hx => hk x (List.mem_cons_of_mem _ hx)))
      (hk k0 (by simp))

end AES

/-! ## Buffers -/

theorem length_zeros (n : Nat) : (zeros n).length = n := by simp [zeros]

theorem copyInto_of_length_eq (dst src : List Byte) (h : dst.length = src.length) :
    copyInto dst src = src := by
  simp [copyInto, h]

theorem copyInto_zeros_of_le (n : Nat) (src : List Byte) (h : src.length ≤ n) :
    copyInto (zeros n) src = src ++ zeros (n - src.length) := by
  simp [copyInto, zeros, List.take_of_length_le, h]

/-- The block fed to the cipher is a block. -/
theorem length_xor_take (iv src : List Byte) (n : Nat) (hiv : iv.length = 16)
    (hsrc : src.length = 16 * (n + 1)) :
    (AES.xorBytes (src.take 16) iv).length = 16 := by
  simp only [AES.length_xorBytes, List.length_take, hiv, hsrc]
  omega

theorem cbcEncryptBlocks_lengths (block : List Byte) :
    ∀ (n : Nat) (iv src : List Byte), iv.length = 16 → src.length = 16 * n →
      (cbcEncryptBlocks block n iv src).1.length = 16 * n ∧
      (cbcEncryptBlocks block n iv src).2.length = 16
  | 0, iv, _, hiv, _ => by simp [cbcEncryptBlocks, hiv]
  | n + 1, iv, src, hiv, hsrc => by
    have hc : (AES.encryptBlock block (AES.xorBytes (src.take 16) iv)).length = 16 :=
      AES.length_encryptBlock _ _ (length_xor_take iv src n hiv hsrc)
    have hd : (src.drop 16).length = 16 * n := by
      simp only [List.length_drop, hsrc]; omega
    have ih := cbcEncryptBlocks_lengths block n _ (src.drop 16) hc hd
    simp only [cbcEncryptBlocks, blockSize, List.length_append, ih.1, ih.2, hc, and_true]
    omega

/-- CBC decryption from the same chaining value gives the plaintext back, and leaves the same
chaining value behind as the encryption did. -/
theorem cbcDecryptBlocks_cbcEncryptBlocks (block : List Byte) :
    ∀ (n : Nat) (iv src : List Byte), iv.length = 16 → src.length = 16 * n →
      cbcDecryptBlocks block n iv (cbcEncryptBlocks block n iv src).1 =
        (src, (cbcEncryptBlocks block n iv src).2)
  | 0, iv, src, _, hsrc => by
    have : src = [] := List.length_eq_zero.mp (by simpa using hsrc)
    simp [cbcEncryptBlocks, cbcDecryptBlocks, this]
  | n + 1, iv, src, hiv, hsrc => by
    have hx := length_xor_take iv src n hiv hsrc
    have hc : (AES.encryptBlock block (AES.xorBytes (src.take 16) iv)).length = 16 :=
      AES.length_encryptBlock _ _ hx
    have hd : (src.drop 16).length = 16 * n := by
      simp only [List.length_drop, hsrc]; omega
    have ih := cbcDecryptBlocks_cbcEncryptBlocks block n _ (src.drop 16) hc hd
    have ht : (src.take 16).length ≤ iv.length := by
      simp only [List.length_take, hiv]; omega
    simp only [cbcEncryptBlocks, cbcDecryptBlocks, blockSize]
    rw [List.take_left' hc, List.drop_left' hc, ih,
      AES.decryptBlock_encryptBlock _ _ hx, AES.xorBytes_cancel _ _ ht, List.take_append_drop]

theorem cbcDecryptBlocks_lengths (block : List Byte) :
    ∀ (n : Nat) (iv src : List Byte), iv.length = 16 → src.length = 16 * n →
      (cbcDecryptBlocks block n iv src).1.length = 16 * n ∧
      (cbcDecryptBlocks block n iv src).2.length = 16
  | 0, iv, _, hiv, _ => by simp [cbcDecryptBlocks, hiv]
  | n + 1, iv, src, hiv, hsrc => by
    have ht : (src.take 16).length = 16 := by
      simp only [List.length_take, hsrc]; omega
    have hd : (src.drop 16).length = 16 * n := by
      simp only [List.length_drop, hsrc]; omega
    have ih := cbcDecryptBlocks_lengths block n (src.take 16) (src.drop 16) ht hd
    simp only [cbcDecryptBlocks, blockSize, List.length_append, ih.1, ih.2,
      AES.length_xorBytes, AES.length_decryptBlock _ _ ht, hiv, and_true]
    omega


/-! ## strconv: `Atoi` reads back what `Itoa` writes -/

theorem newCipher_of_valid (key : List Byte)
    (hk : key.length = 16 ∨ key.length = 24 ∨ key.length = 32) : newCipher key = .ok key := by
  simp [newCipher, hk]

theorem newCipher_of_invalid (key : List Byte)
    (hk : ¬ (key.length = 16 ∨ key.length = 24 ∨ key.length = 32)) :
    newCipher key = .error (.keySize key.length) := by
  simp only [newCipher, if_neg hk]

theorem length_clearLength (data : List Byte) : (clearLength data).length = 16 := by
  simp only [clearLength, copyInto, blockSize, List.length_append, List.length_take,
    List.length_drop, length_zeros]
  omega

theorem padData_eq (data : List Byte) :
    padData data = data ++ zeros ((16 - data.length % 16) % 16) := by
  unfold padData blockSize
  split
  · rename_i h
    rw [copyInto_zeros_of_le _ _ (by omega)]
    congr 2
    omega
  · rename_i h
    have h0 : data.length % 16 = 0 := by omega
    simp [h0, zeros]

theorem length_padData (data : List Byte) :
    (padData data).length = 16 * ((padData data).length / 16) := by
  rw [padData_eq]
  simp only [List.length_append, length_zeros]
  omega

/-- The IV `Encrypt` draws from a source that hands out the bytes `f`. -/
theorem randRead_some (f : Nat → Byte) :
    randRead (some f) (zeros 16) = ((List.range 16).map f, none) := by
  simp [randRead, length_zeros]

/-- With a key AES accepts and a random source that answers, `Encrypt` returns a Container and no
error: the IV, the header block and the padded data encrypted as blocks of one CBC chain, and the
tag over the three. -/
theorem Encrypt_eq (data key : List Byte) (f : Nat → Byte)
    (hk : key.length = 16 ∨ key.length = 24 ∨ key.length = 32) :
    Encrypt data key (some f) =
      .returned
        (⟨(List.range 16).map f,
          (cbcEncryptBlocks key 1 ((List.range 16).map f) (clearLength data)).1,
          (cbcEncryptBlocks key ((padData data).length / 16)
            (cbcEncryptBlocks key 1 ((List.range 16).map f) (clearLength data)).2
            (padData data)).1,
          hmacSHA256 key ((List.range 16).map f ++
            (cbcEncryptBlocks key 1 ((List.range 16).map f) (clearLength data)).1 ++
            (cbcEncryptBlocks key ((padData data).length / 16)
              (cbcEncryptBlocks key 1 ((List.range 16).map f) (clearLength data)).2
              (padData data)).1)⟩, none) := by
  have hiv : ((List.range 16).map f).length = 16 := by simp
  have hcl := length_clearLength data
  have h1 := cbcEncryptBlocks_lengths key 1 _ _ hiv (by simpa using hcl)
  have hp := length_padData data
  have h2 := cbcEncryptBlocks_lengths key ((padData data).length / 16)
    (cbcEncryptBlocks key 1 ((List.range 16).map f) (clearLength data)).2 (padData data) h1.2 hp
  have hb1 : copyInto (clearLength data)
      (cbcEncryptBlocks key 1 ((List.range 16).map f) (clearLength data)).1 =
      (cbcEncryptBlocks key 1 ((List.range 16).map f) (clearLength data)).1 := by
    apply copyInto_of_length_eq
    rw [hcl, h1.1]
  have hb2 : copyInto (zeros (padData data).length)
      (cbcEncryptBlocks key ((padData data).length / 16)
        (cbcEncryptBlocks key 1 ((List.range 16).map f) (clearLength data)).2 (padData data)).1 =
      (cbcEncryptBlocks key ((padData data).length / 16)
        (cbcEncryptBlocks key 1 ((List.range 16).map f) (clearLength data)).2 (padData data)).1 := by
    apply copyInto_of_length_eq
    rw [length_zeros, h2.1, ← hp]
  have hm : (padData data).length % 16 = 0 := by omega
  simp only [Encrypt, newCipher_of_valid key hk, randRead_some, newCBCEncrypter, blockSize, hiv,
    ne_eq, not_true_eq_false, if_false, Outcome.andThen, CBC.encryptCryptBlocks, hcl,
    Nat.reduceMod, length_zeros, Nat.lt_irrefl, Nat.reduceDiv, hb1, hb2, hm, signContainer,
    copyInto_of_length_eq (zeros 16) (clearLength data) (by rw [length_zeros, hcl])]

/-! ## What `Decrypt` does with an authentic Container of whole blocks -/

theorem hmacEqual_self (mac : List Byte) : hmacEqual mac mac = true := by
  simp [hmacEqual]

/-- On a Container whose tag matches, whose IV is one block and whose `Length` and `Data` are
whole blocks, under a key AES accepts, `Decrypt` decrypts both as one CBC chain, parses the
first without its zero bytes and slices the second. -/
theorem Decrypt_eq (c : Container) (key : List Byte) (a b : Nat)
    (hk : key.length = 16 ∨ key.length = 24 ∨ key.length = 32)
    (hmac : c.Hmac = hmacSHA256 key (c.Iv ++ c.Length ++ c.Data))
    (hiv : c.Iv.length = 16) (hl : c.Length.length = 16 * a) (hd : c.Data.length = 16 * b) :
    Decrypt c key =
      match atoi (removeNul (cbcDecryptBlocks key a c.Iv c.Length).1) with
      | .error err => .returned ([], some err)
      | .ok originalLength =>
        if originalLength < 0 ∨ ((16 * b : Nat) : Int) < originalLength then
          .panicked "runtime error: slice bounds out of range"
        else
          .returned ((cbcDecryptBlocks key b (cbcDecryptBlocks key a c.Iv c.Length).2 c.Data).1.take
            originalLength.toNat, none) := by
  have h1 := cbcDecryptBlocks_lengths key a c.Iv c.Length hiv hl
  have h2 := cbcDecryptBlocks_lengths key b _ c.Data h1.2 hd
  have ha : c.Length.length / 16 = a := by omega
  have hb : c.Data.length / 16 = b := by omega
  have hb1 : copyInto (zeros c.Length.length) (cbcDecryptBlocks key a c.Iv c.Length).1 =
      (cbcDecryptBlocks key a c.Iv c.Length).1 :=
    copyInto_of_length_eq _ _ (by rw [length_zeros, h1.1, hl])
  have hb2 : copyInto (zeros c.Data.length)
      (cbcDecryptBlocks key b (cbcDecryptBlocks key a c.Iv c.Length).2 c.Data).1 =
      (cbcDecryptBlocks key b (cbcDecryptBlocks key a c.Iv c.Length).2 c.Data).1 :=
    copyInto_of_length_eq _ _ (by rw [length_zeros, h2.1, hd])
  have hlm : c.Length.length % 16 = 0 := by omega
  have hdm : c.Data.length % 16 = 0 := by omega
  simp only [Decrypt, ← hmac, hmacEqual_self, Bool.not_true, Bool.false_eq_true, if_false,
    newCipher_of_valid key hk, newCBCDecrypter, blockSize, hiv, ne_eq, not_true_eq_false,
    Outcome.andThen, CBC.decryptCryptBlocks, hlm, hdm, length_zeros, Nat.lt_irrefl, ha, hb, hb1,
    hb2, h2.1]

/-! ## `Decrypt` after `Encrypt` -/

/-- The Container `Encrypt` returns for `data` under `key` when the random source hands out the
bytes `f`. -/
theorem Encrypt_returns (data key : List Byte) (f : Nat → Byte)
    (hk : key.length = 16 ∨ key.length = 24 ∨ key.length = 32) :
    ∃ c, Encrypt data key (some f) = .returned (c, none) ∧
      c.Iv = (List.range 16).map f ∧ c.Iv.length = 16 ∧ c.Length.length = 16 ∧
      c.Data.length = (padData data).length ∧
      c.Hmac = hmacSHA256 key (c.Iv ++ c.Length ++ c.Data) ∧
      cbcDecryptBlocks key 1 c.Iv c.Length =
        (clearLength data, (cbcEncryptBlocks key 1 c.Iv (clearLength data)).2) ∧
      (cbcDecryptBlocks key ((padData data).length / 16)
        (cbcEncryptBlocks key 1 c.Iv (clearLength data)).2 c.Data).1 = padData data := by
  have hiv : ((List.range 16).map f).length = 16 := by simp
  have hcl := length_clearLength data
  have h1 := cbcEncryptBlocks_lengths key 1 _ _ hiv (by simpa using hcl)
  have hp := length_padData data
  have h2 := cbcEncryptBlocks_lengths key ((padData data).length / 16)
    (cbcEncryptBlocks key 1 ((List.range 16).map f) (clearLength data)).2 (padData data) h1.2 hp
  refine ⟨_, Encrypt_eq data key f hk, rfl, hiv, by simpa using h1.1, ?_, rfl, ?_, ?_⟩
  · show (cbcEncryptBlocks key _ _ _).1.length = _
    rw [h2.1, ← hp]
  · exact cbcDecryptBlocks_cbcEncryptBlocks key 1 _ _ hiv (by simpa using hcl)
  · show (cbcDecryptBlocks key _ _ (cbcEncryptBlocks key _ _ _).1).1 = _
    rw [cbcDecryptBlocks_cbcEncryptBlocks key _ _ _ h1.2 hp]

/-- What `Decrypt` makes of the Container `Encrypt` returned, under the same key: it reads the
length back from the header block and slices the padded plaintext with it. -/
theorem Decrypt_Encrypt (data key : List Byte) (f : Nat → Byte)
    (hk : key.length = 16 ∨ key.length = 24 ∨ key.length = 32) :
    ∃ c, Encrypt data key (some f) = .returned (c, none) ∧
      Decrypt c key =
        match atoi (removeNul (clearLength data)) with
        | .error err => .returned ([], some err)
        | .ok originalLength =>
          if originalLength < 0 ∨ ((padData data).length : Int) < originalLength then
            .panicked "runtime error: slice bounds out of range"
          else .returned ((padData data).take originalLength.toNat, none) := by
  obtain ⟨c, hc, _, hiv, hl, hd, hmac, h1, h2⟩ := Encrypt_returns data key f hk
  refine ⟨c, hc, ?_⟩
  have hp := length_padData data
  rw [Decrypt_eq c key 1 ((padData data).length / 16) hk hmac hiv (by simpa using hl)
    (by rw [hd, ← hp]), h1]
  simp only [h2, ← hp]

/-- The tag check comes first: a Container whose tag does not match gets the error "HMAC
mismatch" and nothing else happens. -/
theorem Decrypt_of_mismatch (c : Container) (key : List Byte)
    (h : c.Hmac ≠ hmacSHA256 key (c.Iv ++ c.Length ++ c.Data)) :
    Decrypt c key = .returned ([], some .hmacMismatch) := by
  have : hmacEqual (hmacSHA256 key (c.Iv ++ c.Length ++ c.Data)) c.Hmac = false := by
    simp only [hmacEqual, decide_eq_false_iff_not]
    exact fun e => h e.symm
  simp only [Decrypt, this, Bool.not_false, if_true]

/-- An authentic Container whose IV is not one block makes `Decrypt` panic in
`cipher.NewCBCDecrypter`. -/
theorem Decrypt_of_bad_iv (c : Container) (key : List Byte)
    (hk : key.length = 16 ∨ key.length = 24 ∨ key.length = 32)
    (hmac : c.Hmac = hmacSHA256 key (c.Iv ++ c.Length ++ c.Data)) (hiv : c.Iv.length ≠ 16) :
    Decrypt c key =
      .panicked "cipher.NewCBCDecrypter: IV length must equal block size" := by
  simp only [Decrypt, ← hmac, hmacEqual_self, Bool.not_true, Bool.false_eq_true, if_false,
    newCipher_of_valid key hk, newCBCDecrypter, blockSize, ne_eq, hiv, not_false_eq_true, if_true,
    Outcome.andThen]

theorem fromHexChar_hextable : ∀ n < 16, fromHexChar (hextable.getD n 0) = some n := by
  decide

theorem hexDecode_hexEncode : ∀ x : List Byte, hexDecode (hexEncode x) = .ok x
  | [] => rfl
  | v :: rest => by
    have hv := v.isLt
    have hb : (Fin.ofNat (v.val / 16 * 16 + v.val % 16) : Byte) = v := by
      apply Fin.ext
      show (v.val / 16 * 16 + v.val % 16) % 256 = v.val
      omega
    simp only [hexEncode, hexDecode, fromHexChar_hextable _ (show v.val / 16 < 16 by omega),
      fromHexChar_hextable _ (show v.val % 16 < 16 by omega), hexDecode_hexEncode rest, hb]

theorem base64Sextet_base64Char : ∀ v < 64, base64Sextet (base64Char v) = some v := by
  decide

theorem base64Sextet_pad : base64Sextet base64Pad = none := by decide

theorem isNewline_pad : isNewline base64Pad = false := by decide

theorem base64DecodeFrom_base64Encode : ∀ (x : List Byte) (si : Nat),
    base64DecodeFrom (base64Encode x) si [] = .ok x
  | [], _ => rfl
  | [a], si => by
    have ha := a.isLt
    simp only [base64Encode, base64DecodeFrom,
      base64Sextet_base64Char _ (Nat.mod_lt _ (by omega : 0 < 64)), base64Sextet_pad,
      isNewline_pad, skipNewlines, List.length_nil, List.length_cons, List.nil_append,
      List.cons_append, List.length_singleton, Nat.reduceAdd, Nat.reduceEqDiff, if_false,
      ne_eq, not_true_eq_false, Bool.false_eq_true, Nat.lt_irrefl, Nat.reduceLT, if_true,
      quantumBytes, List.getD_cons_zero, List.getD_cons_succ, List.getD_nil, Nat.reduceSub,
      List.take_succ_cons, List.take_zero]
    congr 2
    apply Fin.ext
    show _ % 256 = a.val
    omega
  | [a, b], si => by
    have ha := a.isLt
    have hb := b.isLt
    simp only [base64Encode, base64DecodeFrom,
      base64Sextet_base64Char _ (Nat.mod_lt _ (by omega : 0 < 64)), base64Sextet_pad,
      isNewline_pad, skipNewlines, List.length_nil, List.length_cons, List.nil_append,
      List.cons_append, List.length_singleton, Nat.reduceAdd, Nat.reduceEqDiff, if_false,
      ne_eq, not_true_eq_false, Bool.false_eq_true, Nat.lt_irrefl, Nat.reduceLT, if_true,
      quantumBytes, List.getD_cons_zero, List.getD_cons_succ, List.getD_nil, Nat.reduceSub,
      List.take_succ_cons, List.take_zero]
    congr 2
    · apply Fin.ext
      show _ % 256 = a.val
      omega
    · congr 1
      apply Fin.ext
      show _ % 256 = b.val
      omega
  | a :: b :: c :: rest, si => by
    have ha := a.isLt
    have hb := b.isLt
    have hc := c.isLt
    simp only [base64Encode, base64DecodeFrom,
      base64Sextet_base64Char _ (Nat.mod_lt _ (by omega : 0 < 64)),
      List.length_nil, List.length_cons, List.nil_append,
      List.cons_append, List.length_singleton, Nat.reduceAdd, Nat.reduceEqDiff, if_false,
      if_true, base64DecodeFrom_base64Encode rest,
      quantumBytes, List.getD_cons_zero, List.getD_cons_succ, List.getD_nil, Nat.reduceSub,
      List.take_succ_cons, List.take_zero]
    congr 2
    · apply Fin.ext
      show _ % 256 = a.val
      omega
    · congr 1
      · apply Fin.ext
        show _ % 256 = b.val
        omega
      · congr 1
        apply Fin.ext
        show _ % 256 = c.val
        omega

theorem base64Decode_base64Encode (x : List Byte) : base64Decode (base64Encode x) = .ok x :=
  base64DecodeFrom_base64Encode x 0


/-! ## gob: the decoder reads back what the encoder writes -/

namespace Gob

end Gob

/-! ## The envelope serializer -/

theorem HexDecoding_HexEncoding (x : List Byte) :
    ∃ y, HexEncoding x = (y, none) ∧ HexDecoding y = (x, none) :=
  ⟨hexEncode x, rfl, by simp only [HexDecoding, hexDecode_hexEncode]⟩

theorem Base64Decoding_Base64Encoding (x : List Byte) :
    ∃ y, Base64Encoding x = (y, none) ∧ Base64Decoding y = (x, none) :=
  ⟨base64Encode x, rfl, by simp only [Base64Decoding, base64Decode_base64Encode]⟩


/-! ## The tag is 32 bytes long -/

namespace SHA256

theorem eq_of_length_eight {α : Type} (s : List α) (h : s.length = 8) :
    ∃ a b c d e f g k, s = [a, b, c, d, e, f, g, k] := by
  match s, h with
  | [a, b, c, d, e, f, g, k], _ => exact ⟨a, b, c, d, e, f, g, k, rfl⟩

theorem length_round (v : List Nat) (kw : Nat × Nat) (h : v.length = 8) :
    (round v kw).length = 8 := by
  obtain ⟨a, b, c, d, e, f, g, k, rfl⟩ := eq_of_length_eight v h
  rfl

theorem length_foldl_round : ∀ (kws : List (Nat × Nat)) (v : List Nat), v.length = 8 →
    (kws.foldl round v).length = 8
  | [], _, h => h
  | kw :: kws, v, h => length_foldl_round kws (round v kw) (length_round v kw h)

theorem length_compress (st : List Nat) (blk : List Byte) (h : st.length = 8) :
    (compress st blk).length = 8 := by
  simp only [compress, List.length_zipWith, length_foldl_round _ st h, h, Nat.min_self]

theorem length_hashBlocks : ∀ (n : Nat) (st : List Nat) (msg : List Byte), st.length = 8 →
    (hashBlocks n st msg).length = 8
  | 0, _, _, h => h
  | n + 1, st, _, h => length_hashBlocks n _ _ (length_compress st _ h)

theorem length_foldr_bigEndian : ∀ l : List Nat,
    (l.foldr (fun w acc => bigEndian 4 w ++ acc) []).length = 4 * l.length
  | [] => rfl
  | w :: l => by
    have ih := length_foldr_bigEndian l
    have hb : (bigEndian 4 w).length = 4 := by simp [bigEndian]
    simp only [List.foldr_cons, List.length_append, ih, hb, List.length_cons]
    omega

/-- A digest is 32 bytes long. -/
theorem length_sum256 (msg : List Byte) : (sum256 msg).length = 32 := by
  simp only [sum256, length_foldr_bigEndian, length_hashBlocks _ _ _ (show initialState.length = 8 from rfl)]

end SHA256

/-- A tag is 32 bytes long, whatever the key and the message. -/
theorem length_hmacSHA256 (key msg : List Byte) : (hmacSHA256 key msg).length = 32 := by
  simp only [hmacSHA256, SHA256.length_sum256]

theorem hmacSHA256_ne_nil (key msg : List Byte) : hmacSHA256 key msg ≠ [] := by
  intro h
  have := length_hmacSHA256 key msg
  rw [h] at this
  simp at this


/-! ## Known answers

The embedded primitives give the published test vectors: FIPS-197 appendix C for AES,
FIPS 180 for SHA-256 and RFC 4231 for HMAC-SHA256. -/

theorem AES.encryptBlock_fips197_c1 :
    AES.encryptBlock [0, 1, 2, 3, 4, 5, 6, 7, 8, 9, 10, 11, 12, 13, 14, 15]
      [0, 17, 34, 51, 68, 85, 102, 119, 136, 153, 170, 187, 204, 221, 238, 255] =
      [105, 196, 224, 216, 106, 123, 4, 48, 216, 205, 183, 128, 112, 180, 197, 90] := by
  decide!

theorem AES.encryptBlock_fips197_c2 :
    AES.encryptBlock
      [0, 1, 2, 3, 4, 5, 6, 7, 8, 9, 10, 11,
       12, 13, 14, 15, 16, 17, 18, 19, 20, 21, 22, 23]
      [0, 17, 34, 51, 68, 85, 102, 119, 136, 153, 170, 187, 204, 221, 238, 255] =
      [221, 169, 124, 164, 134, 76, 223, 224, 110, 175, 112, 160, 236, 13, 113, 145] := by
  decide!

theorem AES.encryptBlock_fips197_c3 :
    AES.encryptBlock
      [0, 1, 2, 3, 4, 5, 6, 7, 8, 9, 10, 11, 12, 13, 14, 15,
       16, 17, 18, 19, 20, 21, 22, 23, 24, 25, 26, 27, 28, 29, 30, 31]
      [0, 17, 34, 51, 68, 85, 102, 119, 136, 153, 170, 187, 204, 221, 238, 255] =
      [142, 162, 183, 202, 81, 103, 69, 191, 234, 252, 73, 144, 75, 73, 96, 137] := by
  decide!

theorem SHA256.sum256_abc :
    SHA256.sum256 [97, 98, 99] =
      [186, 120, 22, 191, 143, 1, 207, 234, 65, 65, 64, 222, 93, 174, 34, 35,
       176, 3, 97, 163, 150, 23, 122, 156, 180, 16, 255, 97, 242, 0, 21, 173] := by
  decide!

theorem hmacSHA256_rfc4231_case2 :
    hmacSHA256 [74, 101, 102, 101]
      [119, 104, 97, 116, 32, 100, 111, 32, 121, 97, 32, 119, 97, 110, 116, 32, 102, 111, 114, 32, 110, 111, 116, 104, 105, 110, 103, 63] =
      [91, 220, 193, 70, 191, 96, 117, 78, 106, 4, 36, 38, 8, 149, 117, 199,
       90, 0, 63, 8, 157, 39, 57, 131, 157, 236, 88, 185, 100, 236, 56, 67] := by
  decide!


/-! ## The hex codec, character by character -/

theorem hextable_lower : ∀ n < 16,
    (48 ≤ (hextable.getD n 0).val ∧ (hextable.getD n 0).val ≤ 57) ∨
    (97 ≤ (hextable.getD n 0).val ∧ (hextable.getD n 0).val ≤ 102) := by
  decide

theorem hexEncode_format : ∀ x : List Byte,
    (hexEncode x).length = 2 * x.length ∧
    ∀ c ∈ hexEncode x, (48 ≤ c.val ∧ c.val ≤ 57) ∨ (97 ≤ c.val ∧ c.val ≤ 102)
  | [] => by simp [hexEncode]
  | v :: rest => by
    have hv := v.isLt
    obtain ⟨hl, hc⟩ := hexEncode_format rest
    refine ⟨by simp only [hexEncode, List.length_cons, hl]; omega, ?_⟩
    intro c hmem
    simp only [hexEncode, List.mem_cons] at hmem
    rcases hmem with h | h | h
    · rw [h]; exact hextable_lower _ (by omega)
    · rw [h]; exact hextable_lower _ (by omega)
    · exact hc c h

theorem fromHexChar_eq_none (c : Byte) :
    fromHexChar c = none ↔
      ¬ ((48 ≤ c.val ∧ c.val ≤ 57) ∨ (97 ≤ c.val ∧ c.val ≤ 102) ∨ (65 ≤ c.val ∧ c.val ≤ 70)) := by
  unfold fromHexChar
  split
  · simp; omega
  · split
    · simp; omega
    · split
      · simp; omega
      · simp; omega

/-- What `hex.Decode` accepts has an even length and hexadecimal digits only, and decodes to
half as many bytes. -/
theorem hexDecode_ok : ∀ (y out : List Byte), hexDecode y = .ok out →
    out.length * 2 = y.length ∧ ∀ c ∈ y, fromHexChar c ≠ none
  | [], out, h => by
    simp only [hexDecode, Except.ok.injEq] at h
    subst h
    simp
  | [p], out, h => by
    simp only [hexDecode] at h
    split at h <;> cases h
  | p :: q :: rest, out, h => by
    simp only [hexDecode] at h
    split at h
    · cases h
    · cases h
    · rename_i a b hp hq
      split at h
      · cases h
      · rename_i out2 hrest
        obtain ⟨hl, hc⟩ := hexDecode_ok rest out2 hrest
        simp only [Except.ok.injEq] at h
        subst h
        refine ⟨by simp only [List.length_cons]; omega, ?_⟩
        intro c hmem
        simp only [List.mem_cons] at hmem
        rcases hmem with h | h | h
        · rw [h, hp]; simp
        · rw [h, hq]; simp
        · exact hc c h

/-! ## strconv.Atoi and signed decimal text -/

theorem atoi_error (s : List Byte) (e : GoError) (h : atoi s = .error e) :
    e = .atoiSyntax s ∨ e = .atoiRange s := by
  unfold atoi at h
  simp only at h
  repeat' split at h
  all_goals first
    | (cases h; exact Or.inl rfl)
    | (cases h; exact Or.inr rfl)
    | cases h

theorem le_decimalFrom : ∀ (s : List Byte) (acc : Nat), acc ≤ decimalFrom s acc
  | [], _ => Nat.le_refl _
  | c :: cs, acc => by
    have := le_decimalFrom cs (acc * 10 + (c.val - 48))
    simp only [decimalFrom]
    omega

theorem parseDigits_of_not_allDigits : ∀ (s : List Byte) (acc v : Nat), allDigits s = false →
    parseDigits s acc ≠ .value v
  | [], _, _, h => by simp [allDigits] at h
  | c :: cs, acc, v, h => by
    simp only [parseDigits]
    split
    · rename_i hc
      split
      · intro h'; cases h'
      · split
        · intro h'; cases h'
        · apply parseDigits_of_not_allDigits cs
          simp only [allDigits, List.all_cons, Bool.and_eq_false_iff] at h
          rcases h with h | h
          · simp only [Bool.and_eq_false_iff, decide_eq_false_iff_not] at h
            omega
          · exact h
    · intro h'; cases h'

theorem parseDigits_of_allDigits : ∀ (s : List Byte) (acc : Nat), allDigits s = true →
    acc < 2 ^ 64 →
    parseDigits s acc =
      if decimalFrom s acc < 2 ^ 64 then .value (decimalFrom s acc) else .rangeError
  | [], acc, _, ha => by
    simp only [parseDigits, decimalFrom]
    rw [if_pos ha]
  | c :: cs, acc, h, ha => by
    simp only [allDigits, List.all_cons, Bool.and_eq_true, decide_eq_true_eq] at h
    have hle := le_decimalFrom cs (acc * 10 + (c.val - 48))
    simp only [parseDigits, decimalFrom]
    rw [if_pos h.1]
    split
    · rw [if_neg (by omega)]
    · split
      · rw [if_neg (by omega)]
      · exact parseDigits_of_allDigits cs _ h.2 (by omega)

/-- What `strconv.Atoi` makes of a text: an error unless the text spells an integer of 64 bits,
and that integer otherwise. -/
theorem atoi_signedDecimal (s : List Byte) :
    (signedDecimal s = none → ∃ e, atoi s = .error e) ∧
    (∀ v, signedDecimal s = some v →
      ((v < -(2 ^ 63) ∨ 2 ^ 63 ≤ v) → ∃ e, atoi s = .error e) ∧
      (-(2 ^ 63) ≤ v → v < 2 ^ 63 → atoi s = .ok v)) := by
  unfold signedDecimal atoi
  simp only
  generalize (if s.head? = some 45 ∨ s.head? = some 43 then s.drop 1 else s) = body
  by_cases hb : body = []
  · simp [hb]
  · by_cases hd : allDigits body = true
    · have hp := parseDigits_of_allDigits body 0 hd (by omega)
      simp only [hb, hd, ne_eq, not_false_eq_true, and_self, if_true, if_false, hp]
      refine ⟨fun h => (by cases h), ?_⟩
      intro v hv
      simp only [Option.some.injEq] at hv
      by_cases h64 : decimalFrom body 0 < 2 ^ 64
      · simp only [h64, if_true]
        by_cases hneg : s.head? = some 45
        · simp only [hneg, if_true] at hv ⊢
          subst hv
          refine ⟨?_, ?_⟩
          · intro hr
            rw [if_pos (by omega)]
            exact ⟨_, rfl⟩
          · intro h1 h2
            rw [if_neg (by omega)]
        · simp only [hneg, if_false] at hv ⊢
          subst hv
          refine ⟨?_, ?_⟩
          · intro hr
            rw [if_pos (by omega)]
            exact ⟨_, rfl⟩
          · intro h1 h2
            rw [if_neg (by omega)]
      · simp only [h64, if_false]
        refine ⟨fun _ => ⟨_, rfl⟩, ?_⟩
        intro h1 h2
        exfalso
        by_cases hneg : s.head? = some 45
        · simp only [hneg, if_true] at hv
          omega
        · simp only [hneg, if_false] at hv
          omega
    · have hd' : allDigits body = false := by simpa using hd
      have hp := parseDigits_of_not_allDigits body 0
      simp only [hb, hd, ne_eq, not_false_eq_true, true_and, Bool.false_eq_true, if_false]
      refine ⟨fun _ => ?_, fun v h => (by cases h)⟩
      cases hq : parseDigits body 0 with
      | value n => exact absurd hq (hp n hd')
      | syntaxError => exact ⟨_, rfl⟩
      | rangeError => exact ⟨_, rfl⟩

/-! ## The stateful CBC mode is textbook CBC -/

theorem cbcEncryptBlocks_eq_chain (key : List Byte) : ∀ (n : Nat) (iv msg : List Byte),
    (cbcEncryptBlocks key n iv msg).1 = concatBlocks (cbcChain key iv (blocksOf n msg))
  | 0, _, _ => rfl
  | n + 1, iv, msg => by
    simp only [cbcEncryptBlocks, blockSize, blocksOf, cbcChain, concatBlocks,
      cbcEncryptBlocks_eq_chain key n]

theorem cbcDecryptBlocks_eq_unchain (key : List Byte) : ∀ (n : Nat) (iv msg : List Byte),
    (cbcDecryptBlocks key n iv msg).1 = concatBlocks (cbcUnchain key iv (blocksOf n msg))
  | 0, _, _ => rfl
  | n + 1, iv, msg => by
    simp only [cbcDecryptBlocks, blockSize, blocksOf, cbcUnchain, concatBlocks,
      cbcDecryptBlocks_eq_unchain key n]

/-- Two `CryptBlocks` calls on one CBC encrypter are one call on the two inputs put together. -/
theorem cbcEncryptBlocks_append (key : List Byte) : ∀ (m n : Nat) (iv a b : List Byte),
    a.length = 16 * m →
    cbcEncryptBlocks key (m + n) iv (a ++ b) =
      ((cbcEncryptBlocks key m iv a).1 ++
          (cbcEncryptBlocks key n (cbcEncryptBlocks key m iv a).2 b).1,
        (cbcEncryptBlocks key n (cbcEncryptBlocks key m iv a).2 b).2)
  | 0, n, iv, a, b, h => by
    have : a = [] := List.length_eq_zero.mp (by simpa using h)
    simp [this, cbcEncryptBlocks]
  | m + 1, n, iv, a, b, h => by
    have ht : (a ++ b).take 16 = a.take 16 := List.take_append_of_le_length (by omega)
    have hd : (a ++ b).drop 16 = a.drop 16 ++ b := List.drop_append_of_le_length (by omega)
    have hl : (a.drop 16).length = 16 * m := by simp only [List.length_drop, h]; omega
    have e : m + 1 + n = (m + n) + 1 := by omega
    rw [e]
    simp only [cbcEncryptBlocks, blockSize, ht, hd, cbcEncryptBlocks_append key m n _ _ b hl,
      List.append_assoc]

/-- Two `CryptBlocks` calls on one CBC decrypter are one call on the two inputs put together. -/
theorem cbcDecryptBlocks_append (key : List Byte) : ∀ (m n : Nat) (iv a b : List Byte),
    a.length = 16 * m →
    cbcDecryptBlocks key (m + n) iv (a ++ b) =
      ((cbcDecryptBlocks key m iv a).1 ++
          (cbcDecryptBlocks key n (cbcDecryptBlocks key m iv a).2 b).1,
        (cbcDecryptBlocks key n (cbcDecryptBlocks key m iv a).2 b).2)
  | 0, n, iv, a, b, h => by
    have : a = [] := List.length_eq_zero.mp (by simpa using h)
    simp [this, cbcDecryptBlocks]
  | m + 1, n, iv, a, b, h => by
    have ht : (a ++ b).take 16 = a.take 16 := List.take_append_of_le_length (by omega)
    have hd : (a ++ b).drop 16 = a.drop 16 ++ b := List.drop_append_of_le_length (by omega)
    have hl : (a.drop 16).length = 16 * m := by simp only [List.length_drop, h]; omega
    have e : m + 1 + n = (m + n) + 1 := by omega
    rw [e]
    simp only [cbcDecryptBlocks, blockSize, ht, hd, cbcDecryptBlocks_append key m n _ _ b hl,
      List.append_assoc]

/-- After one block the chaining value of the encrypter is the ciphertext block. -/
theorem cbcEncryptBlocks_one (key iv src : List Byte) :
    cbcEncryptBlocks key 1 iv src =
      (AES.encryptBlock key (AES.xorBytes (src.take 16) iv),
        AES.encryptBlock key (AES.xorBytes (src.take 16) iv)) := by
  simp [cbcEncryptBlocks, blockSize]

/-- After its blocks the chaining value of the decrypter is the last ciphertext block. -/
theorem cbcDecryptBlocks_one (key iv src : List Byte) :
    (cbcDecryptBlocks key 1 iv src).2 = src.take 16 := by
  simp [cbcDecryptBlocks, blockSize]

/-- What `Decrypt` does with an authentic Container whose `Length` is one block, in terms of one
CBC decryption of `Length` and `Data` put together. -/
theorem Decrypt_eq_cbcDecrypt (c : Container) (key : List Byte) (b : Nat)
    (hk : key.length = 16 ∨ key.length = 24 ∨ key.length = 32)
    (hmac : c.Hmac = hmacSHA256 key (c.Iv ++ c.Length ++ c.Data))
    (hiv : c.Iv.length = 16) (hl : c.Length.length = 16) (hd : c.Data.length = 16 * b) :
    Decrypt c key =
      match atoi (removeNul ((cbcDecrypt key c.Iv (c.Length ++ c.Data)).take 16)) with
      | .error err => .returned ([], some err)
      | .ok originalLength =>
        if originalLength < 0 ∨ ((16 * b : Nat) : Int) < originalLength then
          .panicked "runtime error: slice bounds out of range"
        else
          .returned (((cbcDecrypt key c.Iv (c.Length ++ c.Data)).drop 16).take
            originalLength.toNat, none) := by
  have h1 := cbcDecryptBlocks_lengths key 1 c.Iv c.Length hiv (by simpa using hl)
  have hlen : (c.Length ++ c.Data).length / 16 = 1 + b := by
    simp only [List.length_append, hl, hd]; omega
  have hcat : cbcDecrypt key c.Iv (c.Length ++ c.Data) =
      (cbcDecryptBlocks key 1 c.Iv c.Length).1 ++
        (cbcDecryptBlocks key b (cbcDecryptBlocks key 1 c.Iv c.Length).2 c.Data).1 := by
    rw [cbcDecrypt, hlen, ← cbcDecryptBlocks_eq_unchain,
      cbcDecryptBlocks_append key 1 b _ _ _ (by simpa using hl)]
  rw [Decrypt_eq c key 1 b hk hmac hiv (by simpa using hl) hd, hcat,
    List.take_left' (by simpa using h1.1), List.drop_left' (by simpa using h1.1)]

theorem cbcDecrypt_Length (c : Container) (key : List Byte) (a : Nat)
    (hl : c.Length.length = 16 * a) :
    cbcDecrypt key c.Iv c.Length = (cbcDecryptBlocks key a c.Iv c.Length).1 := by
  have : c.Length.length / 16 = a := by omega
  rw [cbcDecrypt, this, ← cbcDecryptBlocks_eq_unchain]

theorem cbcDecrypt_Length_Data (c : Container) (key : List Byte) (a b : Nat)
    (hiv : c.Iv.length = 16) (hl : c.Length.length = 16 * a) (hd : c.Data.length = 16 * b) :
    (cbcDecrypt key c.Iv (c.Length ++ c.Data)).drop c.Length.length =
      (cbcDecryptBlocks key b (cbcDecryptBlocks key a c.Iv c.Length).2 c.Data).1 := by
  have h1 := cbcDecryptBlocks_lengths key a c.Iv c.Length hiv hl
  have hlen : (c.Length ++ c.Data).length / 16 = a + b := by
    simp only [List.length_append, hl, hd]; omega
  rw [cbcDecrypt, hlen, ← cbcDecryptBlocks_eq_unchain, cbcDecryptBlocks_append key a b _ _ _ hl,
    List.drop_left' (by rw [h1.1, hl])]

/-- The Container `plusSignContainer` is authentic under `testKey`. -/
theorem plusSignContainer_authentic :
    plusSignContainer.Hmac = hmacSHA256 testKey
      (plusSignContainer.Iv ++ plusSignContainer.Length ++ plusSignContainer.Data) := by
  decide!

/-! ## What the base64 decoder accepts -/

theorem base64Sextet_isSome : ∀ c : Byte, (base64Sextet c).isSome = inAlphabet c := by
  decide!

theorem isNewline_not_inAlphabet : ∀ c : Byte, isNewline c = true → inAlphabet c = false := by
  decide!

theorem skipNewlines_fst : ∀ (l : List Byte) (si : Nat),
    ∃ si2, skipNewlines l si = (l.dropWhile isNewline, si2)
  | [], si => ⟨si, rfl⟩
  | c :: rest, si => by
    simp only [skipNewlines, List.dropWhile_cons]
    split
    · exact skipNewlines_fst rest (si + 1)
    · exact ⟨si, rfl⟩

theorem filter_dropWhile_isNewline : ∀ l : List Byte,
    (l.dropWhile isNewline).filter (fun c => !isNewline c) = l.filter (fun c => !isNewline c)
  | [] => rfl
  | c :: rest => by
    simp only [List.dropWhile_cons, List.filter_cons]
    split
    · rename_i h
      simp only [h, Bool.not_true, Bool.false_eq_true, if_false]
      exact filter_dropWhile_isNewline rest
    · rename_i h
      simp only [List.filter_cons]

theorem dropWhile_isNewline_cons (l rest : List Byte) (d : Byte)
    (h : l.dropWhile isNewline = d :: rest) : isNewline d = false := by
  have := List.head_dropWhile_not isNewline l (by rw [h]; simp)
  simpa [h] using this

/-- The decoder accepts exactly the inputs that are padded base64 text once their carriage
returns and line feeds are dropped. -/
theorem base64DecodeFrom_ok_iff : ∀ (src : List Byte) (si : Nat) (dbuf : List Nat),
    dbuf.length < 4 →
    ((∃ out, base64DecodeFrom src si dbuf = .ok out) ↔
      paddedFrom (src.filter (fun c => !isNewline c)) dbuf.length = true)
  | [], si, dbuf, h => by
    simp only [base64DecodeFrom, List.filter_nil, paddedFrom, beq_iff_eq]
    by_cases hd : dbuf = []
    · simp [hd]
    · have : dbuf.length ≠ 0 := fun e => hd (List.length_eq_zero.mp e)
      simp [hd, this]
  | c :: rest, si, dbuf, h => by
    have hal := base64Sextet_isSome c
    cases hs : base64Sextet c with
    | some v =>
      have ha : inAlphabet c = true := by rw [← hal, hs]; rfl
      have hn : isNewline c = false := by
        cases hq : isNewline c
        · rfl
        · have := isNewline_not_inAlphabet c hq
          rw [ha] at this
          cases this
      simp only [base64DecodeFrom, hs, List.filter_cons, hn, Bool.not_false, if_true, paddedFrom,
        ha]
      by_cases h3 : dbuf.length = 3
      · have ih := base64DecodeFrom_ok_iff rest (si + 1) [] (by simp)
        simp only [h3, if_true]
        rw [show (3 + 1) % 4 = ([] : List Nat).length from rfl, ← ih]
        cases hr : base64DecodeFrom rest (si + 1) [] with
        | error e => simp
        | ok o => simp
      · simp only [h3, if_false]
        have := base64DecodeFrom_ok_iff rest (si + 1) (dbuf ++ [v])
          (by simp only [List.length_append, List.length_singleton]; omega)
        rw [this]
        simp only [List.length_append, List.length_singleton]
        rw [Nat.mod_eq_of_lt (by omega)]
    | none =>
      have ha : inAlphabet c = false := by rw [← hal, hs]; rfl
      by_cases hn : isNewline c = true
      · simp only [base64DecodeFrom, hs, hn, if_true, List.filter_cons, Bool.not_true,
          Bool.false_eq_true, if_false]
        exact base64DecodeFrom_ok_iff rest (si + 1) dbuf h
      · have hn' : isNewline c = false := by simpa using hn
        by_cases hp : c = base64Pad
        · subst hp
          obtain ⟨s2, hs2⟩ := skipNewlines_fst rest (si + 1)
          have hf := filter_dropWhile_isNewline rest
          simp only [base64DecodeFrom, hs, hn', Bool.false_eq_true, if_false, ne_eq,
            not_true_eq_false, List.filter_cons, Bool.not_false, if_true, paddedFrom, ha, hs2]
          have hpad : (base64Pad == 61) = true := by decide
          rw [← hf, hpad, Bool.true_and]
          have hlen : dbuf.length = 0 ∨ dbuf.length = 1 ∨ dbuf.length = 2 ∨ dbuf.length = 3 := by
            omega
          cases hr : List.dropWhile isNewline rest with
          | nil =>
            rcases hlen with h0 | h0 | h0 | h0 <;> simp [h0]
          | cons d rest2 =>
            have hdn : isNewline d = false := dropWhile_isNewline_cons rest rest2 d hr
            simp only [List.filter_cons, hdn, Bool.not_false, if_true]
            rcases hlen with h0 | h0 | h0 | h0
            · simp [h0]
            · simp [h0]
            · simp only [h0, Nat.lt_irrefl, if_false, if_true]
              by_cases hd : d = base64Pad
              · subst hd
                obtain ⟨s3, hs3⟩ := skipNewlines_fst rest2 (s2 + 1)
                have hf2 := filter_dropWhile_isNewline rest2
                simp only [not_true_eq_false, if_false, hs3]
                rw [← hf2]
                cases hr2 : List.dropWhile isNewline rest2 with
                | nil => simp; decide
                | cons x r3 =>
                  have hxn : isNewline x = false := dropWhile_isNewline_cons rest2 r3 x hr2
                  simp [hxn]
              · have : (d == 61) = false := by
                  simp only [beq_eq_false_iff_ne, ne_eq]
                  exact hd
                simp [hd, this]
            · simp [h0]
        · simp only [base64DecodeFrom, hs, hn', Bool.false_eq_true, if_false, ne_eq, hp,
            not_false_eq_true, if_true, List.filter_cons, Bool.not_false, paddedFrom, ha]
          have : (c == 61) = false := by
            simp only [beq_eq_false_iff_ne, ne_eq]
            exact hp
          simp [this]

theorem paddedFrom_bytes : ∀ (s : List Byte) (j : Nat), paddedFrom s j = true →
    ∀ c ∈ s, inAlphabet c = true ∨ c = 61
  | [], _, _, c, hc => by simp at hc
  | x :: rest, j, h, c, hc => by
    simp only [paddedFrom] at h
    split at h
    · rename_i hx
      rcases List.mem_cons.mp hc with e | e
      · exact Or.inl (e ▸ hx)
      · exact paddedFrom_bytes rest _ h c e
    · simp only [Bool.and_eq_true, Bool.or_eq_true, beq_iff_eq] at h
      obtain ⟨hx, hrest⟩ := h
      rcases List.mem_cons.mp hc with e | e
      · exact Or.inr (e ▸ hx)
      · rcases hrest with ⟨_, hr⟩ | ⟨_, hr⟩
        · rw [hr] at e; simp at e
        · rw [hr] at e
          exact Or.inr (by simpa using e)

theorem paddedFrom_length : ∀ (s : List Byte) (j : Nat), paddedFrom s j = true →
    (j + s.length) % 4 = 0
  | [], j, h => by
    simp only [paddedFrom, beq_iff_eq] at h
    simp [h]
  | x :: rest, j, h => by
    simp only [paddedFrom] at h
    split at h
    · have := paddedFrom_length rest _ h
      simp only [List.length_cons]
      omega
    · simp only [Bool.and_eq_true, Bool.or_eq_true, beq_iff_eq] at h
      rcases h.2 with ⟨hj, hr⟩ | ⟨hj, hr⟩
      · simp [hj, hr]
      · simp [hj, hr]

theorem Base64Decoding_ok_iff (y : List Byte) :
    (∃ out, Base64Decoding y = (out, none)) ↔
      isPaddedBase64 (y.filter (fun c => !isNewline c)) = true := by
  have hk := base64DecodeFrom_ok_iff y 0 [] (by simp)
  simp only [List.length_nil] at hk
  rw [isPaddedBase64, ← hk]
  unfold Base64Decoding base64Decode
  cases base64DecodeFrom y 0 [] with
  | error e => simp
  | ok o => simp

theorem Base64Decoding_error_of_not_ok (y : List Byte)
    (h : ¬ ∃ out, Base64Decoding y = (out, none)) : ∃ err, Base64Decoding y = ([], some err) := by
  unfold Base64Decoding base64Decode at h ⊢
  cases hd : base64DecodeFrom y 0 [] with
  | error e => exact ⟨e, rfl⟩
  | ok o => rw [hd] at h; exact absurd ⟨o, rfl⟩ h


/-! ## The claims -/

/-- C3: for every Container and every key, of any length, a tag that is not the HMAC-SHA256
under the key of `Iv`, `Length` and `Data` makes `Decrypt` return the error "HMAC mismatch" and
no plaintext; nothing about the key length, the IV or the blocks is looked at before. -/
theorem C3_Decrypt_authentication_gate (c : Container) (key : List Byte)
    (h : c.Hmac ≠ hmacSHA256 key (c.Iv ++ c.Length ++ c.Data)) :
    Decrypt c key = .returned ([], some .hmacMismatch) :=
  Decrypt_of_mismatch c key h

/-- C3, witness: the empty Container under the ten-byte key "invalidkey", which AES would not
accept. -/
theorem C3_Decrypt_authentication_gate_witness :
    Decrypt Container.zero [105, 110, 118, 97, 108, 105, 100, 107, 101, 121] =
      .returned ([], some .hmacMismatch) :=
  C3_Decrypt_authentication_gate Container.zero [105, 110, 118, 97, 108, 105, 100, 107, 101, 121]
    (hmacSHA256_ne_nil _ _).symm

/-- C5, the code at the failing input: on the Container of the test "Missing IV", whose tag is
the HMAC of its `Data` and whose `Iv` and `Length` are empty, under `testKey`, the tag check
passes and `Decrypt` panics in `cipher.NewCBCDecrypter` where the test expects an error. -/
theorem C5_Decrypt_missing_iv_panics :
    Decrypt dataOnlyContainer testKey =
      .panicked "cipher.NewCBCDecrypter: IV length must equal block size" :=
  Decrypt_of_bad_iv dataOnlyContainer testKey (by decide)
    (by simp only [dataOnlyContainer, musthmac, List.nil_append]) (by decide)

/-- C6, the code at the failing input: `outOfRangeContainer` passes the tag check under
`testKey`, its header decrypts to the length 5 and its data buffer is empty; `Decrypt` panics in
the slice expression `data[:originalLength]` where the claim wants an error. -/
theorem C6_Decrypt_length_out_of_range_panics :
    Decrypt outOfRangeContainer testKey =
      .panicked "runtime error: slice bounds out of range" := by
  decide!

/-- C8: for every Container with a non-empty tag and every key, `Verify` returns no error and
the boolean that tells whether the tag is the HMAC-SHA256 under the key of `Data` alone; `Iv` and
`Length` play no part, and a Container whose tag is that HMAC verifies true. -/
theorem C8_Verify_authenticates_data_alone (c : Container) (key : List Byte) (h : c.Hmac ≠ []) :
    (∃ b, Verify c key = (b, none) ∧ (b = true ↔ c.Hmac = hmacSHA256 key c.Data)) ∧
    (∀ iv len, Verify ⟨iv, len, c.Data, c.Hmac⟩ key = Verify c key) ∧
    (∀ iv len, Verify ⟨iv, len, c.Data, hmacSHA256 key c.Data⟩ key = (true, none)) := by
  have hl : c.Hmac.length ≠ 0 := fun e => h (List.length_eq_zero.mp e)
  have hm : (hmacSHA256 key c.Data).length ≠ 0 := by rw [length_hmacSHA256]; omega
  refine ⟨⟨hmacEqual (hmacSHA256 key c.Data) c.Hmac, ?_, ?_⟩, ?_, ?_⟩
  · simp only [Verify, hl, if_false]
  · simp only [hmacEqual, decide_eq_true_eq]
    exact ⟨Eq.symm, Eq.symm⟩
  · intro iv len
    simp only [Verify]
  · intro iv len
    simp only [Verify, hm, if_false, hmacEqual_self]

/-- C8, witness: the Container of the test "Valid HMAC". -/
theorem C8_Verify_authenticates_data_alone_witness :
    (∃ b, Verify dataOnlyContainer testKey = (b, none) ∧
      (b = true ↔ dataOnlyContainer.Hmac = hmacSHA256 testKey dataOnlyContainer.Data)) ∧
    (∀ iv len, Verify ⟨iv, len, dataOnlyContainer.Data, dataOnlyContainer.Hmac⟩ testKey =
      Verify dataOnlyContainer testKey) ∧
    (∀ iv len, Verify ⟨iv, len, dataOnlyContainer.Data,
      hmacSHA256 testKey dataOnlyContainer.Data⟩ testKey = (true, none)) :=
  C8_Verify_authenticates_data_alone dataOnlyContainer testKey
    (by simp only [dataOnlyContainer, musthmac]; exact hmacSHA256_ne_nil _ _)

/-- C9: for every Container whose tag is empty, whatever its other fields, and every key,
`Verify` returns false and the error "HMAC missing". -/
theorem C9_Verify_rejects_empty_hmac (c : Container) (key : List Byte) (h : c.Hmac = []) :
    Verify c key = (false, some .hmacMissing) := by
  simp only [Verify, h, List.length_nil, if_true]

/-- C9, witness: the Container of the test "Missing HMAC". -/
theorem C9_Verify_rejects_empty_hmac_witness :
    Verify ⟨[], [], [1, 2, 3, 4], []⟩ testKey = (false, some .hmacMissing) :=
  C9_Verify_rejects_empty_hmac ⟨[], [], [1, 2, 3, 4], []⟩ testKey rfl

/-- C11: for every plaintext and every key of 16, 24 or 32 bytes, the Container `Encrypt`
returns has an `Iv` of 16 bytes, a `Length` of 16 bytes, an `Hmac` of 32 bytes and a `Data` whose
length is the smallest multiple of 16 not below the length of the plaintext; a plaintext whose
length is a multiple of 16 gets no further block, and the empty plaintext gets an empty `Data`. -/
theorem C11_Encrypt_field_sizes (p key : List Byte) (f : Nat → Byte)
    (hk : key.length = 16 ∨ key.length = 24 ∨ key.length = 32) :
    ∃ c, Encrypt p key (some f) = .returned (c, none) ∧
      c.Iv.length = 16 ∧ c.Length.length = 16 ∧ c.Hmac.length = 32 ∧
      c.Data.length % 16 = 0 ∧ p.length ≤ c.Data.length ∧
      (∀ m, m % 16 = 0 → p.length ≤ m → c.Data.length ≤ m) ∧
      (p.length % 16 = 0 → c.Data.length = p.length) ∧
      (p = [] → c.Data = []) := by
  obtain ⟨c, hc, _, hiv, hl, hd, hmac, _, _⟩ := Encrypt_returns p key f hk
  have hp : (padData p).length = p.length + (16 - p.length % 16) % 16 := by
    rw [padData_eq]; simp [length_zeros]
  refine ⟨c, hc, hiv, hl, by rw [hmac, length_hmacSHA256], by omega, by omega, ?_, by omega, ?_⟩
  · intro m hm hpm
    omega
  · intro he
    apply List.length_eq_zero.mp
    rw [hd, hp, he]
    rfl

/-- C11, witness: the ten-byte plaintext of the tests under `testKey`; `Data` is one block. -/
theorem C11_Encrypt_field_sizes_witness :
    ∃ c, Encrypt [1, 2, 3, 4, 5, 6, 7, 8, 9, 10] testKey (some (fun _ => 0)) =
        .returned (c, none) ∧
      c.Iv.length = 16 ∧ c.Length.length = 16 ∧ c.Hmac.length = 32 ∧
      c.Data.length % 16 = 0 ∧ [1, 2, 3, 4, 5, 6, 7, 8, 9, (10 : Byte)].length ≤ c.Data.length ∧
      (∀ m, m % 16 = 0 → [1, 2, 3, 4, 5, 6, 7, 8, 9, (10 : Byte)].length ≤ m →
        c.Data.length ≤ m) ∧
      ([1, 2, 3, 4, 5, 6, 7, 8, 9, (10 : Byte)].length % 16 = 0 →
        c.Data.length = [1, 2, 3, 4, 5, 6, 7, 8, 9, (10 : Byte)].length) ∧
      ([1, 2, 3, 4, 5, 6, 7, 8, 9, (10 : Byte)] = [] → c.Data = []) :=
  C11_Encrypt_field_sizes [1, 2, 3, 4, 5, 6, 7, 8, 9, 10] testKey (fun _ => 0) (by decide)

/-- C12: for every byte buffer, `NoEncoding` returns it unchanged, `HexDecoding` gives it back
from what `HexEncoding` returned and `Base64Decoding` from what `Base64Encoding` returned, and
none of these calls returns an error. -/
theorem C12_codecs_are_inverse_pairs (x : List Byte) :
    NoEncoding x = (x, none) ∧
    (∃ y, HexEncoding x = (y, none) ∧ HexDecoding y = (x, none)) ∧
    (∃ y, Base64Encoding x = (y, none) ∧ Base64Decoding y = (x, none)) :=
  ⟨rfl, HexDecoding_HexEncoding x, Base64Decoding_Base64Encoding x⟩

/-- C13: for every key whose length is not 16, 24 or 32, `Encrypt` returns the key size error
together with the zero Container for every plaintext, whether or not the random source answers,
and `Decrypt` returns an error and no plaintext for every Container: "HMAC mismatch" when the tag
does not match, the key size error when it does. -/
theorem C13_invalid_key_length_is_surfaced (key : List Byte)
    (hk : ¬ (key.length = 16 ∨ key.length = 24 ∨ key.length = 32)) :
    (∀ p rnd, Encrypt p key rnd = .returned (Container.zero, some (.keySize key.length))) ∧
    (∀ c, Decrypt c key = .returned ([], some .hmacMismatch) ∨
      Decrypt c key = .returned ([], some (.keySize key.length))) := by
  refine ⟨?_, ?_⟩
  · intro p rnd
    simp only [Encrypt, newCipher_of_invalid key hk]
  · intro c
    by_cases h : c.Hmac = hmacSHA256 key (c.Iv ++ c.Length ++ c.Data)
    · right
      simp only [Decrypt, ← h, hmacEqual_self, Bool.not_true, Bool.false_eq_true, if_false,
        newCipher_of_invalid key hk]
    · left
      exact Decrypt_of_mismatch c key h

/-- C13, witness: the ten-byte key "invalidkey" of the test "Invalid HMAC". -/
theorem C13_invalid_key_length_is_surfaced_witness :
    (∀ p rnd, Encrypt p [105, 110, 118, 97, 108, 105, 100, 107, 101, 121] rnd =
      .returned (Container.zero,
        some (.keySize [105, 110, 118, 97, 108, 105, 100, 107, 101, (121 : Byte)].length))) ∧
    (∀ c, Decrypt c [105, 110, 118, 97, 108, 105, 100, 107, 101, 121] =
        .returned ([], some .hmacMismatch) ∨
      Decrypt c [105, 110, 118, 97, 108, 105, 100, 107, 101, 121] =
        .returned ([], some
          (.keySize [105, 110, 118, 97, 108, 105, 100, 107, 101, (121 : Byte)].length))) :=
  C13_invalid_key_length_is_surfaced [105, 110, 118, 97, 108, 105, 100, 107, 101, 121]
    (by decide)


/-- C14: for every byte buffer of `n` bytes `HexEncoding` returns `2 * n` characters, each one
of `0-9` or `a-f`, and no error; for every input of odd length, or with a byte that is not a
hexadecimal digit (`0-9`, `a-f`, `A-F`), `HexDecoding` returns an error and no bytes; and what
`HexDecoding` returns without an error is half as long as its input. -/
theorem C14_hex_codec_format (x y : List Byte) :
    (∃ e, HexEncoding x = (e, none) ∧ e.length = 2 * x.length ∧
      ∀ c ∈ e, (48 ≤ c.val ∧ c.val ≤ 57) ∨ (97 ≤ c.val ∧ c.val ≤ 102)) ∧
    ((y.length % 2 = 1 ∨ ∃ c ∈ y, ¬ ((48 ≤ c.val ∧ c.val ≤ 57) ∨ (97 ≤ c.val ∧ c.val ≤ 102) ∨
        (65 ≤ c.val ∧ c.val ≤ 70))) → ∃ err, HexDecoding y = ([], some err)) ∧
    (∀ out, HexDecoding y = (out, none) → out.length = y.length / 2) := by
  refine ⟨⟨hexEncode x, rfl, (hexEncode_format x).1, (hexEncode_format x).2⟩, ?_, ?_⟩
  · intro h
    cases hd : hexDecode y with
    | error err => exact ⟨err, by simp only [HexDecoding, hd]⟩
    | ok out =>
      obtain ⟨hl, hc⟩ := hexDecode_ok y out hd
      rcases h with h | ⟨c, hmem, hbad⟩
      · omega
      · exact absurd ((fromHexChar_eq_none c).mpr hbad) (hc c hmem)
  · intro out h
    cases hd : hexDecode y with
    | error err => simp [HexDecoding, hd] at h
    | ok out2 =>
      simp only [HexDecoding, hd, Prod.mk.injEq, and_true] at h
      subst h
      have := (hexDecode_ok y out2 hd).1
      omega

/-- C14, witness: the four bytes of the tests encode to "01020304"; the odd-length input "0a1"
and the input "0g" are refused, the upper-case input "0A" is accepted. -/
theorem C14_hex_codec_format_witness :
    HexEncoding [1, 2, 3, 4] = ([48, 49, 48, 50, 48, 51, 48, 52], none) ∧
    (∃ err, HexDecoding [48, 97, 49] = ([], some err)) ∧
    (∃ err, HexDecoding [48, 103] = ([], some err)) ∧
    HexDecoding [48, 65] = ([10], none) :=
  ⟨by decide,
    (C14_hex_codec_format [] [48, 97, 49]).2.1 (Or.inl (by decide)),
    (C14_hex_codec_format [] [48, 103]).2.1 (Or.inr ⟨103, by decide, by decide⟩),
    by decide⟩

/-- C15, as stated, fails: the input "AAAA" followed by a line feed holds a byte outside the
alphabet and the padding character, and `Base64Decoding` returns three zero bytes and no
error. -/
theorem C15_Base64Decoding_accepts_line_feed :
    Base64Decoding [65, 65, 65, 65, 10] = ([0, 0, 0], none) ∧
    inAlphabet 10 = false ∧ (10 : Byte) ≠ base64Pad := by
  decide

/-- C15, amended: carriage returns and line feeds are skipped; apart from them
`Base64Decoding` is strict.  It returns an error and no bytes on every input that, without its
carriage returns and line feeds, is not padded base64 text: in particular when the input holds a
byte other than a character of the alphabet, `=`, a carriage return or a line feed, and when what
is left is not a multiple of four characters long.  It returns no error on every other input. -/
theorem C15_Base64Decoding_is_strict_up_to_newlines (y : List Byte) :
    (isPaddedBase64 (y.filter (fun c => !isNewline c)) = false →
      ∃ err, Base64Decoding y = ([], some err)) ∧
    ((∃ c ∈ y, inAlphabet c = false ∧ c ≠ 61 ∧ c.val ≠ 10 ∧ c.val ≠ 13) →
      ∃ err, Base64Decoding y = ([], some err)) ∧
    ((y.filter (fun c => !isNewline c)).length % 4 ≠ 0 →
      ∃ err, Base64Decoding y = ([], some err)) ∧
    (isPaddedBase64 (y.filter (fun c => !isNewline c)) = true →
      ∃ out, Base64Decoding y = (out, none)) := by
  have hiff := Base64Decoding_ok_iff y
  have herr : isPaddedBase64 (y.filter (fun c => !isNewline c)) ≠ true →
      ∃ err, Base64Decoding y = ([], some err) :=
    fun h => Base64Decoding_error_of_not_ok y (fun hok => h (hiff.mp hok))
  refine ⟨fun h => herr (by rw [h]; simp), ?_, ?_, hiff.mpr⟩
  · rintro ⟨c, hc, ha, h61, h10, h13⟩
    apply herr
    intro hp
    have hmem : c ∈ y.filter (fun c => !isNewline c) := by
      simp only [List.mem_filter, hc, true_and, isNewline, Bool.not_eq_true', Bool.or_eq_false_iff,
        decide_eq_false_iff_not]
      exact ⟨h10, h13⟩
    rcases paddedFrom_bytes _ 0 hp c hmem with h | h
    · rw [ha] at h; cases h
    · exact h61 h
  · intro hl
    apply herr
    intro hp
    have := paddedFrom_length _ 0 hp
    omega

/-- C15, witness: the text "aGVsbG8" lacks its padding character and is refused; with the
padding and a line feed after it, it is accepted. -/
theorem C15_Base64Decoding_is_strict_up_to_newlines_witness :
    (∃ err, Base64Decoding [97, 71, 86, 115, 98, 71, 56] = ([], some err)) ∧
    (∃ out, Base64Decoding [97, 71, 86, 115, 98, 71, 56, 61, 10] = (out, none)) :=
  ⟨(C15_Base64Decoding_is_strict_up_to_newlines [97, 71, 86, 115, 98, 71, 56]).1 (by decide),
    (C15_Base64Decoding_is_strict_up_to_newlines
      [97, 71, 86, 115, 98, 71, 56, 61, 10]).2.2.2 (by decide)⟩

/-- C16, amended: for every plaintext, every key of 16, 24 or 32 bytes and every IV drawn,
`Length` is the CBC encryption of the 16-byte header under the key and the IV, and `Data` is the
CBC encryption of the zero-padded plaintext under the key continued from `Length`: the chaining
value of its first block is the `Length` ciphertext, not the IV, so the first `Data` block is the
encryption of the first padded plaintext block xored with `Length`. -/
theorem C16_Data_continues_the_chain_of_Length (p key : List Byte) (f : Nat → Byte)
    (hk : key.length = 16 ∨ key.length = 24 ∨ key.length = 32) :
    ∃ c, Encrypt p key (some f) = .returned (c, none) ∧
      c.Length = cbcEncrypt key c.Iv (clearLength p) ∧
      c.Data = cbcEncrypt key c.Length (padData p) ∧
      (p ≠ [] → c.Data.take 16 =
        AES.encryptBlock key (AES.xorBytes ((padData p).take 16) c.Length)) := by
  have hcl := length_clearLength p
  have hiv : ((List.range 16).map f).length = 16 := by simp
  have h1 := cbcEncryptBlocks_lengths key 1 _ _ hiv (by simpa using hcl)
  have hone := cbcEncryptBlocks_one key ((List.range 16).map f) (clearLength p)
  have h21 : (cbcEncryptBlocks key 1 ((List.range 16).map f) (clearLength p)).2 =
      (cbcEncryptBlocks key 1 ((List.range 16).map f) (clearLength p)).1 := by rw [hone]
  refine ⟨_, Encrypt_eq p key f hk, ?_, ?_, ?_⟩
  · show (cbcEncryptBlocks key 1 _ _).1 = _
    rw [cbcEncryptBlocks_eq_chain, cbcEncrypt, hcl]
  · show (cbcEncryptBlocks key _ _ _).1 = cbcEncrypt key (cbcEncryptBlocks key 1 _ _).1 _
    rw [h21, cbcEncryptBlocks_eq_chain, cbcEncrypt]
  · intro hne
    show (cbcEncryptBlocks key _ _ _).1.take 16 =
      AES.encryptBlock key (AES.xorBytes _ (cbcEncryptBlocks key 1 _ _).1)
    rw [h21]
    have hL : (cbcEncryptBlocks key 1 ((List.range 16).map f) (clearLength p)).1.length = 16 := by
      simpa using h1.1
    generalize (cbcEncryptBlocks key 1 ((List.range 16).map f) (clearLength p)).1 = L at hL ⊢
    have hp := length_padData p
    have hpos : 0 < (padData p).length := by
      rw [padData_eq]
      have : 0 < p.length := List.length_pos.mpr hne
      simp only [List.length_append]
      omega
    obtain ⟨n, hn⟩ : ∃ n, (padData p).length / 16 = n + 1 :=
      ⟨(padData p).length / 16 - 1, by omega⟩
    rw [hn]
    simp only [cbcEncryptBlocks, blockSize]
    rw [List.take_left']
    exact AES.length_encryptBlock _ _ (length_xor_take _ _ n hL (by omega))

/-- C16, witness: the four-byte plaintext of the tests under `testKey`. -/
theorem C16_Data_continues_the_chain_of_Length_witness :
    ∃ c, Encrypt [1, 2, 3, 4] testKey (some (fun _ => 0)) = .returned (c, none) ∧
      c.Length = cbcEncrypt testKey c.Iv (clearLength [1, 2, 3, 4]) ∧
      c.Data = cbcEncrypt testKey c.Length (padData [1, 2, 3, 4]) ∧
      ([1, 2, 3, (4 : Byte)] ≠ [] → c.Data.take 16 =
        AES.encryptBlock testKey (AES.xorBytes ((padData [1, 2, 3, 4]).take 16) c.Length)) :=
  C16_Data_continues_the_chain_of_Length [1, 2, 3, 4] testKey (fun _ => 0) (by decide)

/-- C16, as stated, fails: for the plaintext `[1, 2, 3, 4]` under `testKey` and the zero IV,
`Encrypt` returns `encryptedFour`, whose `Data` is not the CBC encryption of the padded plaintext
started from the IV: its first block is not the encryption of the first padded block xored with
the IV. -/
theorem C16_Data_is_not_a_fresh_CBC_stream :
    Encrypt [1, 2, 3, 4] testKey (some (fun _ => 0)) = .returned (encryptedFour, none) ∧
      encryptedFour.Data ≠ cbcEncrypt testKey encryptedFour.Iv (padData [1, 2, 3, 4]) ∧
      encryptedFour.Data.take 16 ≠
        AES.encryptBlock testKey (AES.xorBytes ((padData [1, 2, 3, 4]).take 16) encryptedFour.Iv) := by
  decide!

/-- C17, as stated, fails: `plusSignContainer` passes the tag check under `testKey`, its
decrypted length block without the zero bytes is the text "+4", which carries a sign, and
`Decrypt` returns the four bytes `[1, 2, 3, 4]` and no error. -/
theorem C17_Decrypt_accepts_plus_sign :
    plusSignContainer.Hmac = hmacSHA256 testKey
      (plusSignContainer.Iv ++ plusSignContainer.Length ++ plusSignContainer.Data) ∧
    removeNul (cbcDecrypt testKey plusSignContainer.Iv plusSignContainer.Length) = [43, 52] ∧
    Decrypt plusSignContainer testKey = .returned ([1, 2, 3, 4], none) := by
  decide!

/-- C17, amended: for every Container that passes the tag check under a key of 16, 24 or 32
bytes and has a one-block IV and whole blocks of `Length` and `Data`, `Decrypt` drops every zero
byte of the decrypted `Length`, interior ones too, and reads the rest as `strconv.Atoi` does: an
optional `+` or `-`, then one or more ASCII digits.  A text that is not of that form, or whose
value does not fit a 64-bit integer, is answered with an error; a text whose value `L` is
between 0 and the length of the decrypted data is answered with the first `L` bytes of the
decrypted data and no error. -/
theorem C17_Decrypt_parses_signed_length (c : Container) (key : List Byte) (a b : Nat)
    (hk : key.length = 16 ∨ key.length = 24 ∨ key.length = 32)
    (hmac : c.Hmac = hmacSHA256 key (c.Iv ++ c.Length ++ c.Data))
    (hiv : c.Iv.length = 16) (hl : c.Length.length = 16 * a) (hd : c.Data.length = 16 * b) :
    (signedDecimal ((cbcDecrypt key c.Iv c.Length).filter (fun x => x ≠ 0)) = none →
      ∃ err, Decrypt c key = .returned ([], some err)) ∧
    (∀ v, signedDecimal ((cbcDecrypt key c.Iv c.Length).filter (fun x => x ≠ 0)) = some v →
      (v < -(2 ^ 63) ∨ 2 ^ 63 ≤ v) → ∃ err, Decrypt c key = .returned ([], some err)) ∧
    (∀ v, signedDecimal ((cbcDecrypt key c.Iv c.Length).filter (fun x => x ≠ 0)) = some v →
      0 ≤ v → v < 2 ^ 63 →
      v ≤ ((cbcDecrypt key c.Iv (c.Length ++ c.Data)).drop c.Length.length).length →
      Decrypt c key =
        .returned (((cbcDecrypt key c.Iv (c.Length ++ c.Data)).drop c.Length.length).take
          v.toNat, none)) := by
  have h1 := cbcDecryptBlocks_lengths key a c.Iv c.Length hiv hl
  have h2 := cbcDecryptBlocks_lengths key b _ c.Data h1.2 hd
  have hD := Decrypt_eq c key a b hk hmac hiv hl hd
  have hs := atoi_signedDecimal (removeNul (cbcDecryptBlocks key a c.Iv c.Length).1)
  rw [cbcDecrypt_Length c key a hl, cbcDecrypt_Length_Data c key a b hiv hl hd]
  change (signedDecimal (removeNul _) = none → _) ∧
    (∀ v, signedDecimal (removeNul _) = some v → _) ∧
    (∀ v, signedDecimal (removeNul _) = some v → _)
  refine ⟨?_, ?_, ?_⟩
  · intro hn
    obtain ⟨e, he⟩ := hs.1 hn
    exact ⟨e, by rw [hD, he]⟩
  · intro v hv hr
    obtain ⟨e, he⟩ := (hs.2 v hv).1 hr
    exact ⟨e, by rw [hD, he]⟩
  · intro v hv h0 h63 hle
    have he := (hs.2 v hv).2 (by omega) h63
    rw [h2.1] at hle
    rw [hD, he]
    simp only
    rw [if_neg (by push_cast; omega)]

/-- C17, witness: `plusSignContainer` under `testKey`, one block of `Length` and one of `Data`. -/
theorem C17_Decrypt_parses_signed_length_witness :
    (signedDecimal ((cbcDecrypt testKey plusSignContainer.Iv plusSignContainer.Length).filter
        (fun x => x ≠ 0)) = none →
      ∃ err, Decrypt plusSignContainer testKey = .returned ([], some err)) ∧
    (∀ v, signedDecimal ((cbcDecrypt testKey plusSignContainer.Iv
        plusSignContainer.Length).filter (fun x => x ≠ 0)) = some v →
      (v < -(2 ^ 63) ∨ 2 ^ 63 ≤ v) →
      ∃ err, Decrypt plusSignContainer testKey = .returned ([], some err)) ∧
    (∀ v, signedDecimal ((cbcDecrypt testKey plusSignContainer.Iv
        plusSignContainer.Length).filter (fun x => x ≠ 0)) = some v →
      0 ≤ v → v < 2 ^ 63 →
      v ≤ ((cbcDecrypt testKey plusSignContainer.Iv
        (plusSignContainer.Length ++ plusSignContainer.Data)).drop
          plusSignContainer.Length.length).length →
      Decrypt plusSignContainer testKey =
        .returned (((cbcDecrypt testKey plusSignContainer.Iv
          (plusSignContainer.Length ++ plusSignContainer.Data)).drop
            plusSignContainer.Length.length).take v.toNat, none)) :=
  C17_Decrypt_parses_signed_length plusSignContainer testKey 1 1 (by decide)
    plusSignContainer_authentic (by decide) (by decide) (by decide)

/-- C18: for every plaintext and every key of 16, 24 or 32 bytes, the tag of the Container
`Encrypt` returns is the HMAC-SHA256 under the key of its `Iv`, `Length` and `Data` as returned,
that is of the ciphertext; so the comparison at the head of `Decrypt` under the same key
succeeds, and `Decrypt` does not answer "HMAC mismatch". -/
theorem C18_Encrypt_then_MAC (p key : List Byte) (f : Nat → Byte)
    (hk : key.length = 16 ∨ key.length = 24 ∨ key.length = 32) :
    ∃ c, Encrypt p key (some f) = .returned (c, none) ∧
      c.Hmac = hmacSHA256 key (c.Iv ++ c.Length ++ c.Data) ∧
      hmacEqual (hmacSHA256 key (c.Iv ++ c.Length ++ c.Data)) c.Hmac = true ∧
      Decrypt c key ≠ .returned ([], some .hmacMismatch) := by
  obtain ⟨c, hc, _, _, _, _, hmac, _, _⟩ := Encrypt_returns p key f hk
  obtain ⟨c2, hc2, hd⟩ := Decrypt_Encrypt p key f hk
  have hcc : c2 = c := by
    rw [hc] at hc2
    injection hc2 with hc2
    exact (Prod.mk.inj hc2).1.symm
  subst hcc
  refine ⟨c2, hc, hmac, by rw [← hmac]; exact hmacEqual_self _, ?_⟩
  rw [hd]
  cases ha : atoi (removeNul (clearLength p)) with
  | error err =>
    simp only
    intro h
    injection h with h
    have he : err = .hmacMismatch := by
      have := (Prod.mk.inj h).2
      injection this
    rcases atoi_error _ _ ha with h1 | h1 <;> rw [h1] at he <;> cases he
  | ok n =>
    simp only
    split
    · intro h; cases h
    · intro h
      injection h with h
      have := (Prod.mk.inj h).2
      cases this

/-- C18, witness: the four-byte plaintext of the tests under `testKey`. -/
theorem C18_Encrypt_then_MAC_witness :
    ∃ c, Encrypt [1, 2, 3, 4] testKey (some (fun _ => 0)) = .returned (c, none) ∧
      c.Hmac = hmacSHA256 testKey (c.Iv ++ c.Length ++ c.Data) ∧
      hmacEqual (hmacSHA256 testKey (c.Iv ++ c.Length ++ c.Data)) c.Hmac = true ∧
      Decrypt c testKey ≠ .returned ([], some .hmacMismatch) :=
  C18_Encrypt_then_MAC [1, 2, 3, 4] testKey (fun _ => 0) (by decide)

/-- C19: for every plaintext, every key of 16, 24 or 32 bytes and every IV, `Length` followed by
`Data` as `Encrypt` returns them is one CBC encryption, under the key and the IV, of the 16-byte
header followed by the zero-padded plaintext, and one CBC decryption gives both back; and on
every authentic Container with a one-block IV, a one-block `Length` and whole blocks of `Data`,
`Decrypt` works on one CBC decryption of `Length` followed by `Data`: it parses the first block
as the length and slices what follows. -/
theorem C19_single_chained_CBC_stream (p key : List Byte) (f : Nat → Byte)
    (hk : key.length = 16 ∨ key.length = 24 ∨ key.length = 32) :
    (∃ c, Encrypt p key (some f) = .returned (c, none) ∧
      c.Length ++ c.Data = cbcEncrypt key c.Iv (clearLength p ++ padData p) ∧
      cbcDecrypt key c.Iv (c.Length ++ c.Data) = clearLength p ++ padData p) ∧
    (∀ (c : Container) (b : Nat), c.Hmac = hmacSHA256 key (c.Iv ++ c.Length ++ c.Data) →
      c.Iv.length = 16 → c.Length.length = 16 → c.Data.length = 16 * b →
      Decrypt c key =
        match atoi (removeNul ((cbcDecrypt key c.Iv (c.Length ++ c.Data)).take 16)) with
        | .error err => .returned ([], some err)
        | .ok originalLength =>
          if originalLength < 0 ∨ ((16 * b : Nat) : Int) < originalLength then
            .panicked "runtime error: slice bounds out of range"
          else
            .returned (((cbcDecrypt key c.Iv (c.Length ++ c.Data)).drop 16).take
              originalLength.toNat, none)) := by
  have hcl := length_clearLength p
  have hiv : ((List.range 16).map f).length = 16 := by simp
  have hp := length_padData p
  have hlen : (clearLength p ++ padData p).length / 16 = 1 + (padData p).length / 16 := by
    simp only [List.length_append, hcl]; omega
  have hmsg : (clearLength p ++ padData p).length = 16 * (1 + (padData p).length / 16) := by
    simp only [List.length_append, hcl]; omega
  have henc : (cbcEncryptBlocks key 1 ((List.range 16).map f) (clearLength p)).1 ++
      (cbcEncryptBlocks key ((padData p).length / 16)
        (cbcEncryptBlocks key 1 ((List.range 16).map f) (clearLength p)).2 (padData p)).1 =
      cbcEncrypt key ((List.range 16).map f) (clearLength p ++ padData p) := by
    rw [cbcEncrypt, hlen, ← cbcEncryptBlocks_eq_chain,
      cbcEncryptBlocks_append key 1 _ _ _ _ (by simpa using hcl)]
  refine ⟨⟨_, Encrypt_eq p key f hk, henc, ?_⟩, ?_⟩
  · show cbcDecrypt key _ (_ ++ _) = _
    have hl2 := cbcEncryptBlocks_lengths key (1 + (padData p).length / 16)
      ((List.range 16).map f) (clearLength p ++ padData p) hiv hmsg
    rw [henc, cbcEncrypt, hlen, ← cbcEncryptBlocks_eq_chain, cbcDecrypt, hl2.1,
      Nat.mul_div_cancel_left _ (by omega : 0 < 16), ← cbcDecryptBlocks_eq_unchain,
      cbcDecryptBlocks_cbcEncryptBlocks key _ _ _ hiv hmsg]
  · intro c b hmac hiv hl hd
    exact Decrypt_eq_cbcDecrypt c key b hk hmac hiv hl hd

/-- C19, witness: the four-byte plaintext of the tests under `testKey`. -/
theorem C19_single_chained_CBC_stream_witness :
    ∃ c, Encrypt [1, 2, 3, 4] testKey (some (fun _ => 0)) = .returned (c, none) ∧
      c.Length ++ c.Data = cbcEncrypt testKey c.Iv (clearLength [1, 2, 3, 4] ++ padData [1, 2, 3, 4]) ∧
      cbcDecrypt testKey c.Iv (c.Length ++ c.Data) =
        clearLength [1, 2, 3, 4] ++ padData [1, 2, 3, 4] :=
  (C19_single_chained_CBC_stream [1, 2, 3, 4] testKey (fun _ => 0) (by decide)).1

end Crypttk
